import Mathlib

/-!
Shallow embedding of the key-management core of the twizzler object-store
repository: the stable key-map scheme, the mapped key-derivation forests of
the secure-deletion engine ("Lethe"), and the crypto I/O adapters, together
with proofs and refutations of the specification claims about them.

Machine integers are embedded as `Nat` (`u64::MAX` appears explicitly where
the source checks it).  External capabilities that are not part of this
repository (keyed hash, stream cipher, IV generator, secure RNG,
serialization) are modelled from the specification as deterministic
executable functions, as are the few modules of this repository whose
sources are not available (`Khf`, `consts`, the crypter plumbing); each
such definition says so in its doc comment.
-/

deriving instance DecidableEq for Except

namespace Twizzler

/-! ## Sector arithmetic of the crypto I/O adapters

Translated from `src/lib/kms/src/io/crypt/keyed/padded.rs` (lines 44-79)
and the identical helpers in `src/lib/kms/src/io/crypt/speculative.rs`
(lines 106-161).  `S` stands for `SECTOR_SIZE`, `ivl` for `C::iv_length()`,
`CH` for `SPECULATION_CHUNK_SIZE`; the values of those constants live in
the crate's `consts` module, so everything here is parametric in them. -/

/-- `SECTOR_SIZE - C::iv_length()` (padded.rs line 45). -/
def sectorDataSize (S ivl : Nat) : Nat := S - ivl

/-- `offset / sector_data_size` (padded.rs line 54); `D` is the sector data
size. -/
def logicalSectorIndex (D off : Nat) : Nat := off / D

/-- `logical_sector_index(offset) * sector_data_size` (padded.rs line 58). -/
def logicalSectorOffset (D off : Nat) : Nat := logicalSectorIndex D off * D

/-- `offset % sector_data_size` (padded.rs line 62). -/
def logicalSectorPadding (D off : Nat) : Nat := off % D

/-- `(len + (sector_data_size - 1)) / sector_data_size` (padded.rs line 66). -/
def logicalSectorCount (D len : Nat) : Nat := (len + (D - 1)) / D

/-- `sectors * C::iv_length()` (padded.rs line 70). -/
def logicalSectorIvPadding (ivl sectors : Nat) : Nat := sectors * ivl

/-- `logical_sector_index(offset) * padded_sector_size` (padded.rs line 74). -/
def realSectorOffset (S D off : Nat) : Nat := logicalSectorIndex D off * S

/-- `(len + (padded_sector_size - 1)) / padded_sector_size`
(padded.rs line 78). -/
def realSectorCount (S len : Nat) : Nat := (len + (S - 1)) / S

/-- `SpeculativePreCryptAt::sector_range` (speculative.rs lines 147-152). -/
def sectorRange (D off len : Nat) : Nat × Nat :=
  let padding := logicalSectorPadding D off
  let sectors := logicalSectorCount D (padding + len)
  let startSector := logicalSectorIndex D off
  (startSector, startSector + sectors)

/-- `SpeculativePreCryptAt::speculation_range` (speculative.rs
lines 154-161). -/
def speculationRange (D CH off len : Nat) : Nat × Nat :=
  let chunkIndex := off / CH
  let chunkPadding := off % CH
  let chunkOffset := chunkIndex * CH
  let chunksNeeded := (chunkPadding + len + (CH - 1)) / CH
  sectorRange D chunkOffset (chunksNeeded * CH)

/-! ## Log entries and the stable hash-map scheme

Translated from `twizzler-object-store/kms/src/hashmap.rs`.  The
`StableLogEntry` enum is declared in the crate root (not among the
available sources); its four variants and their fields are taken from the
exhaustive matches over it in `Lethe::update` (lethe/mod.rs lines 486-530)
and `MappedKhf::update_inner` (mapped.rs lines 330-360). -/

/-- The tagged log-entry type of the stable schemes. -/
inductive StableLogEntry where
  | updateRange (id startBlock endBlock : Nat)
  | update (id block : Nat)
  | delete (id block : Nat)
  | deleteObject (id : Nat)
deriving DecidableEq

/-- Modelled from the spec: the external `KeyGenerator` capability (a
secure RNG, spec section 6).  A generator instance is a counter `n`; its
n-th output is `genKeyAt n`.  Keys are embedded as `Nat`. -/
def genKeyAt (n : Nat) : Nat := n

/-- Set-insert on the list embedding of a `HashSet`: a no-op when the
element is already present, else appended (insertion order stands in for
the arbitrary hash-iteration order). -/
def insertIdem (a : Nat) (l : List Nat) : List Nat :=
  if a ∈ l then l else l ++ [a]

/-- Set-removal on the list embedding of a `HashSet`. -/
def removeAll (a : Nat) (l : List Nat) : List Nat :=
  l.filter (fun x => x ≠ a)

/-- `StableKeyMap<R, N>` (hashmap.rs lines 16-20).  The `HashMap` of keys
is embedded as an association list, the `HashSet` of updated keys as a
duplicate-free list, and the RNG as its counter state. -/
structure StableKeyMap where
  keys : List (Nat × Nat)
  updatedKeys : List Nat
  rng : Nat
deriving DecidableEq

/-- `StableKeyMap::derive` (hashmap.rs lines 45-47).  The error type of the
scheme is `Infallible`, embedded as `Empty`: this operation can only return
`Ok`. -/
def StableKeyMap.derive (s : StableKeyMap) (keyId : Nat) :
    Except Empty (Option Nat) :=
  .ok (s.keys.lookup keyId)

/-- `StableKeyMap::derive_mut` (hashmap.rs lines 67-78).  The `_wal`
argument is unused by the source, so it is omitted here. -/
def StableKeyMap.deriveMut (s : StableKeyMap) (keyId : Nat) :
    Nat × StableKeyMap :=
  let updated := insertIdem keyId s.updatedKeys
  match s.keys.lookup keyId with
  | some k => (k, { s with updatedKeys := updated })
  | none =>
      let k := genKeyAt s.rng
      (k, { keys := s.keys ++ [(keyId, k)], updatedKeys := updated,
            rng := s.rng + 1 })

/-- Removal of a key from the association-list embedding of a `HashMap`. -/
def eraseKey (keys : List (Nat × Nat)) (keyId : Nat) : List (Nat × Nat) :=
  keys.filter (fun p => p.1 ≠ keyId)

/-- In-place overwrite of the stored key of `keyId` (the effect of
`*key = self.rng.gen_key()` through the `get_mut` borrow). -/
def setKey (keys : List (Nat × Nat)) (keyId newKey : Nat) :
    List (Nat × Nat) :=
  keys.map (fun p => if p.1 = keyId then (p.1, newKey) else p)

/-- `StableKeyMap::delete` (hashmap.rs lines 97-105). -/
def StableKeyMap.delete (s : StableKeyMap) (keyId : Nat) : StableKeyMap :=
  { s with keys := eraseKey s.keys keyId,
           updatedKeys := removeAll keyId s.updatedKeys }

/-- The loop body of `StableKeyMap::update` (hashmap.rs lines 111-118):
for each id in `updated_keys`, if a key is stored, push the pair holding
the CURRENT (pre-rotation) key, then overwrite the stored key with a fresh
generator output.  Returns (pushed pairs, final key map, final RNG
state). -/
def updateGo (keys : List (Nat × Nat)) (rng : Nat) :
    List Nat → List (Nat × Nat) × List (Nat × Nat) × Nat
  | [] => ([], keys, rng)
  | id :: rest =>
    match keys.lookup id with
    | some k =>
        let r := updateGo (setKey keys id (genKeyAt rng)) (rng + 1) rest
        ((id, k) :: r.1, r.2)
    | none => updateGo keys rng rest

/-- `StableKeyMap::update` (hashmap.rs lines 107-121).  The `HashSet`
iteration order is arbitrary; the embedding iterates the set in its list
order.  Faithful to the source, `updated_keys` is NOT cleared. -/
def StableKeyMap.update (s : StableKeyMap) :
    List (Nat × Nat) × StableKeyMap :=
  let r := updateGo s.keys s.rng s.updatedKeys
  (r.1, { s with keys := r.2.1, rng := r.2.2 })

/-- Concrete run for C2/C4: the empty scheme. -/
def skmEx0 : StableKeyMap := { keys := [], updatedKeys := ∅, rng := 0 }

/-- After `derive_mut(0)`: key 0 stored with generator output 0, marked. -/
def skmEx1 : StableKeyMap := (skmEx0.deriveMut 0).2

/-- After the first `update()`. -/
def skmEx2 : StableKeyMap := (skmEx1.update).2

/-! ## The key-derivation forest and mapped forests

`MappedKhf` is translated from
`twizzler-object-store/kms/src/khf/lethe/mapped.rs`.  The inner forest
`Khf` (khf/khf.rs, node.rs, topology.rs) is not among the available
sources — only its callers are — so it is modelled from the spec
(section 4.1) as noted on each definition. -/

/-- Modelled from the spec: the keyed-hash derivation of the leaf key at
position `i` of a forest rooted at `key` (spec 4.1: keys are produced
deterministically by hash-chaining from the root; the hash itself is an
external capability).  `Nat.pair` is an injective executable stand-in. -/
def kdf (key i : Nat) : Nat := Nat.pair key i

/-- Modelled from the spec: the fresh root a forest draws for the next
epoch (from its RNG in the source); deterministic stand-in. -/
def nextRoot (key : Nat) : Nat := Nat.pair key 1

/-- Modelled from the spec: the state of a key-derivation forest `Khf`:
`numKeys` allocated leaves, leaf `i` holding key `kdf rootKey i`, a
spanning root for future rebalancing, and the set of leaves marked dirty
for the next epoch (a `HashSet` in the source, embedded as a
duplicate-free list). -/
structure KhfState where
  rootKey : Nat
  spanningRootKey : Nat
  numKeys : Nat
  markedKeys : List Nat
deriving DecidableEq

/-- Modelled from the spec: `Khf::derive_inner` — read-only derivation; a
position beyond the allocated leaf count is not covered (spec 4.1). -/
def KhfState.deriveInner (s : KhfState) (keyId : Nat) : Option Nat :=
  if keyId < s.numKeys then some (kdf s.rootKey keyId) else none

/-- Modelled from the spec: `Khf::derive_mut_inner` — read-or-create:
yields the current leaf key, marks the leaf dirty for the next epoch, and
extends the allocated leaf count as needed. -/
def KhfState.deriveMutInner (s : KhfState) (keyId : Nat) :
    Nat × KhfState :=
  (kdf s.rootKey keyId,
    { s with numKeys := max s.numKeys (keyId + 1),
             markedKeys := insertIdem keyId s.markedKeys })

/-- Modelled from the spec: `Khf::mark_key_inner` — mark a leaf dirty. -/
def KhfState.markKeyInner (s : KhfState) (keyId : Nat) : KhfState :=
  { s with markedKeys := insertIdem keyId s.markedKeys }

/-- Modelled from the spec: `Khf::delete_key_inner` — removing the last
live leaf truncates and returns `true`; an interior removal is realized
lazily through the next epoch and returns `false` (spec 4.1; the flag
drives the Delete-vs-Update logging in `MappedKhf::delete_inner`,
mapped.rs lines 295-311). -/
def KhfState.deleteKeyInner (s : KhfState) (keyId : Nat) :
    Bool × KhfState :=
  if keyId + 1 = s.numKeys then
    (true, { s with numKeys := keyId,
                    markedKeys := removeAll keyId s.markedKeys })
  else
    (false, { s with markedKeys := insertIdem keyId s.markedKeys })

/-- Modelled from the spec: `Khf::update_inner` applied to the set of
updated ids accumulated by the caller: it returns the pre-rotation key of
every updated id still covered by the forest (the repository's tests
assert that `update` returns the keys current before the call), then
re-roots the forest for the next epoch and clears the dirty marks. -/
def KhfState.updateInner (s : KhfState) (updatedKeys : List Nat) :
    List (Nat × Nat) × KhfState :=
  ((updatedKeys.filter (fun i => i < s.numKeys)).map
      (fun i => (i, kdf s.rootKey i)),
    { rootKey := nextRoot s.rootKey,
      spanningRootKey := nextRoot s.spanningRootKey,
      numKeys := s.numKeys,
      markedKeys := [] })

/-- `MappedKhf` (mapped.rs lines 17-24): an inner forest together with its
forest-id and the object id it serves. -/
structure MappedKhf where
  inner : KhfState
  khfId : Nat
  objId : Nat
deriving DecidableEq

/-- `MappedKhfBuilder::with_keys` (mapped.rs lines 439-456); the fanouts
only configure the unmodelled topology. -/
def MappedKhf.withKeys (khfId objId rootKey spanningRootKey : Nat) :
    MappedKhf :=
  { inner := { rootKey := rootKey, spanningRootKey := spanningRootKey,
               numKeys := 0, markedKeys := [] },
    khfId := khfId, objId := objId }

/-- `MappedKhfBuilder::with_rng` (mapped.rs lines 427-437): seeds the two
roots from two successive outputs of a generator instance (the source
creates a fresh `R::default()`; the embedding threads the generator
counter explicitly). -/
def MappedKhf.withRng (khfId objId rngSeed : Nat) : MappedKhf :=
  MappedKhf.withKeys khfId objId (genKeyAt rngSeed) (genKeyAt (rngSeed + 1))

/-- `MappedKhf::derive_inner` (mapped.rs lines 80-108); the read-cache
fast path is behind the `lethe-caching` feature and is not modelled. -/
def MappedKhf.deriveInner (m : MappedKhf) (keyId : Nat) : Option Nat :=
  m.inner.deriveInner keyId

/-- `MappedKhf::derive_mut_inner` (mapped.rs lines 137-188): appends an
`Update` entry for the serving object to the WAL, then derives mutably on
the inner forest. -/
def MappedKhf.deriveMutInner (m : MappedKhf)
    (wal : List StableLogEntry) (keyId : Nat) :
    Nat × MappedKhf × List StableLogEntry :=
  let wal2 := wal ++ [StableLogEntry.update m.objId keyId]
  let r := m.inner.deriveMutInner keyId
  (r.1, { m with inner := r.2 }, wal2)

/-- `MappedKhf::derive_mut_inner_unlogged` (mapped.rs lines 260-293). -/
def MappedKhf.deriveMutInnerUnlogged (m : MappedKhf) (keyId : Nat) :
    Nat × MappedKhf :=
  let r := m.inner.deriveMutInner keyId
  (r.1, { m with inner := r.2 })

/-- `MappedKhf::mark_key_inner` (mapped.rs lines 76-78). -/
def MappedKhf.markKeyInner (m : MappedKhf) (keyId : Nat) :
    MappedKhf :=
  { m with inner := m.inner.markKeyInner keyId }

/-- `MappedKhf::delete_inner` (mapped.rs lines 295-311): logs `Delete` on
truncation, else `Update`. -/
def MappedKhf.deleteInner (m : MappedKhf)
    (wal : List StableLogEntry) (keyId : Nat) :
    MappedKhf × List StableLogEntry :=
  let r := m.inner.deleteKeyInner keyId
  if r.1 then
    ({ m with inner := r.2 }, wal ++ [StableLogEntry.delete m.objId keyId])
  else
    ({ m with inner := r.2 }, wal ++ [StableLogEntry.update m.objId keyId])

/-- `MappedKhf::delete_inner_unlogged` (mapped.rs lines 313-315). -/
def MappedKhf.deleteInnerUnlogged (m : MappedKhf) (keyId : Nat) :
    Bool × MappedKhf :=
  let r := m.inner.deleteKeyInner keyId
  (r.1, { m with inner := r.2 })

/-- One step of the WAL replay loop of `MappedKhf::update_inner`
(mapped.rs lines 330-360), acting on the inner forest and the accumulated
`updated_keys` set: `UpdateRange` and `Update` mark and record their
targets, `Delete` deletes and un-records; `DeleteObject` is declared
`unreachable!()` by the source (the caller filters such entries out), so
the embedding leaves the state unchanged there. -/
def replayStep (st : KhfState × List Nat) (e : StableLogEntry) :
    KhfState × List Nat :=
  match e with
  | .updateRange _ startBlock endBlock =>
      (List.range' startBlock (endBlock - startBlock)).foldl
        (fun st2 keyId =>
          (st2.1.markKeyInner keyId, insertIdem keyId st2.2)) st
  | .update _ block => (st.1.markKeyInner block, insertIdem block st.2)
  | .delete _ block =>
      ((st.1.deleteKeyInner block).2, removeAll block st.2)
  | .deleteObject _ => st

/-- `MappedKhf::update_inner` (mapped.rs lines 317-363): replay the log in
order accumulating the updated set, then update the inner forest with that
set. -/
def MappedKhf.updateInner (m : MappedKhf)
    (wal : List StableLogEntry) : List (Nat × Nat) × MappedKhf :=
  let st := wal.foldl replayStep (m.inner, [])
  let r := st.1.updateInner st.2
  (r.1, { m with inner := r.2 })

/-- An entry handled purely by marking (no deletion): `UpdateRange` or
`Update`. -/
def StableLogEntry.isUpdateEntry : StableLogEntry → Bool
  | .updateRange _ _ _ => true
  | .update _ _ => true
  | .delete _ _ => false
  | .deleteObject _ => false

/-- Which block ids an update-like entry targets. -/
def StableLogEntry.targets : StableLogEntry → Nat → Prop
  | .updateRange _ startBlock endBlock, x =>
      startBlock ≤ x ∧ x < endBlock
  | .update _ block, x => x = block
  | .delete _ block, x => x = block
  | .deleteObject _, _ => False

/-- A two-leaf forest used in the C3 counterexample. -/
def khfEx : MappedKhf :=
  { inner := { rootKey := 3, spanningRootKey := 4, numKeys := 2,
               markedKeys := [] },
    khfId := 1, objId := 0 }

/-! ## The secure-deletion engine (Lethe)

Translated from
`src/lib/twizzler-object-store/kms/src/khf/lethe/mod.rs`, its arena
(`lethe/arena.rs`) and the id manager (`src/lib/kms/src/id/mod.rs`,
`id/seq.rs`).  Filesystem and encryption plumbing (`std::fs`,
`OneshotCryptIo`, bincode) are modelled as an explicit file-store whose
files carry their encryption key and serialized value symbolically.  The
`lethe-caching` and `lethe-interval-tracking` feature-gated fast paths are
not modelled (the WAL appends they guard are identical in both
configurations). -/

/-- `u64::MAX`. -/
def u64Max : Nat := 2 ^ 64 - 1

/-- The error kinds of the embedded Lethe code paths.  The defining enum
(khf/error.rs) is not among the available sources; the variants are taken
from their uses in lethe/mod.rs, arena.rs and id/mod.rs, id/seq.rs. -/
inductive LetheError where
  | missingSourceMapping (id : Nat)
  | missingDestinationMapping (id : Nat)
  | outOfIds
  | nonExistentKey
  | loadObjectKhf
  | io
  | load
  | persist
deriving DecidableEq

/-- `SequentialIdAllocator<u64>` (id/seq.rs lines 9-29): the next candidate
id and the reserved set (a `HashSet`, list-embedded). -/
structure SequentialIdAllocator where
  curr : Nat
  reserved : List Nat
deriving DecidableEq

/-- The `while self.reserved.contains(&self.curr)` loop of
`SequentialIdAllocator::alloc` (id/seq.rs lines 42-44).  The fuel
`reserved.length + 1` bounds the loop: each iteration increments the
candidate, and at most `reserved.length` consecutive candidates can be
reserved. -/
def skipReservedFuel : Nat → List Nat → Nat → Nat
  | 0, _, curr => curr
  | fuel + 1, reserved, curr =>
      if curr ∈ reserved then skipReservedFuel fuel reserved (curr + 1)
      else curr

/-- `SequentialIdAllocator::alloc` (id/seq.rs lines 38-49). -/
def SequentialIdAllocator.alloc (a : SequentialIdAllocator) :
    Except LetheError (Nat × SequentialIdAllocator) :=
  if a.curr = u64Max then .error .outOfIds
  else
    let c := skipReservedFuel (a.reserved.length + 1) a.reserved a.curr
    .ok (c, { a with curr := c + 1 })

/-- `SequentialIdAllocator::dealloc` (id/seq.rs lines 51-54). -/
def SequentialIdAllocator.dealloc (a : SequentialIdAllocator) (id : Nat) :
    SequentialIdAllocator :=
  { a with reserved := removeAll id a.reserved }

/-- `IdManager` (id/mod.rs lines 26-44): the bijective source/destination
maps plus the allocator. -/
structure IdManager where
  srcToDst : List (Nat × Nat)
  dstToSrc : List (Nat × Nat)
  idAllocator : SequentialIdAllocator
deriving DecidableEq

/-- `IdManager::resolve_src_id` (id/mod.rs lines 165-174). -/
def IdManager.resolveSrcId (m : IdManager) (srcId : Nat) :
    Except LetheError Nat :=
  match m.srcToDst.lookup srcId with
  | some d => .ok d
  | none => .error (.missingSourceMapping srcId)

/-- `IdManager::resolve_dst_id` (id/mod.rs lines 176-185). -/
def IdManager.resolveDstId (m : IdManager) (dstId : Nat) :
    Except LetheError Nat :=
  match m.dstToSrc.lookup dstId with
  | some srcId => .ok srcId
  | none => .error (.missingDestinationMapping dstId)

/-- `IdManager::add` (id/mod.rs lines 77-90). -/
def IdManager.add (m : IdManager) (srcId : Nat) :
    Except LetheError (Nat × IdManager) :=
  match m.srcToDst.lookup srcId with
  | some d => .ok (d, m)
  | none =>
      match m.idAllocator.alloc with
      | .error e => .error e
      | .ok (d, alloc2) =>
          .ok (d, { srcToDst := m.srcToDst ++ [(srcId, d)],
                    dstToSrc := m.dstToSrc ++ [(d, srcId)],
                    idAllocator := alloc2 })

/-- `IdManager::remove` (id/mod.rs lines 123-137). -/
def IdManager.remove (m : IdManager) (srcId : Nat) :
    Except LetheError (Nat × IdManager) :=
  match m.srcToDst.lookup srcId with
  | some d =>
      .ok (d, { srcToDst := eraseKey m.srcToDst srcId,
                dstToSrc := eraseKey m.dstToSrc d,
                idAllocator := m.idAllocator.dealloc d })
  | none => .error (.missingSourceMapping srcId)

/-- The serde-visible part of `Lethe` (lethe/mod.rs lines 126-157): the
caches, dirty set, RNG, IV generator and crypter fields are
`#[serde(skip)]`, and the arena serializes only its directory and memory
bound (arena.rs lines 179-210). -/
structure LethePersisted where
  arenaDir : Nat
  arenaMemoryLimit : Nat
  idManager : IdManager
  systemKhf : MappedKhf
  systemKhfFanouts : List Nat
  objectKhfFanouts : List Nat
  rootKeyKdf : Nat
  spanningRootKeyKdf : Nat
  fragmented : Bool
deriving DecidableEq

/-- A path in the engine's file layout: `<dir>/<khf_id>.khf`
(`PersistentArena::khf_path`, arena.rs lines 57-60) or `<dir>/state`
(`Lethe::metadata_path`, lethe/mod.rs lines 206-208).  Directories are
abstract ids. -/
inductive FsPath where
  | khfPath (dir : Nat) (khfId : Nat)
  | statePath (dir : Nat)
deriving DecidableEq

/-- Modelled from the spec: the contents of a persisted file.  `persist`
encrypts a bincode serialization under a key (`OneshotCryptIo`, whose
source is not available); the model keeps the key and the serialized value
symbolically, so decryption with the right key recovers the value and a
wrong key fails deserialization. -/
inductive FileData where
  | khfFile (encKey : Nat) (khf : MappedKhf)
  | stateFile (encKey : Nat) (st : LethePersisted)
deriving DecidableEq

/-- Modelled from the spec: the filesystem, as directories that exist and
an association of paths to file contents. -/
structure Fs where
  dirs : List Nat
  files : List (FsPath × FileData)
deriving DecidableEq

/-- Read a file (`None` when it does not exist). -/
def Fs.get (fs : Fs) (p : FsPath) : Option FileData :=
  (fs.files.find? (fun q => q.1 = p)).map (fun q => q.2)

/-- Create or truncate-and-write a file. -/
def Fs.set (fs : Fs) (p : FsPath) (d : FileData) : Fs :=
  { fs with files := (fs.files.filter (fun q => q.1 ≠ p)) ++ [(p, d)] }

/-- `fs::remove_file`. -/
def Fs.removeFile (fs : Fs) (p : FsPath) : Fs :=
  { fs with files := fs.files.filter (fun q => q.1 ≠ p) }

/-- `fs::create_dir_all`. -/
def Fs.createDirAll (fs : Fs) (d : Nat) : Fs :=
  { fs with dirs := insertIdem d fs.dirs }

/-- `PersistentArena` (arena.rs lines 50-54): resident forests addressed
by forest-id, each with its unlock key.  Entry sizes and LRU eviction are
not modelled: the embedding corresponds to runs whose working set stays
within the (default `2^32`-byte) memory limit, where `reserve_memory`
(arena.rs lines 104-109) never evicts. -/
structure PersistentArena where
  dir : Nat
  khfs : List (Nat × Nat × MappedKhf)
  memoryLimit : Nat
deriving DecidableEq

/-- `PersistentArena::get` (arena.rs lines 131-135). -/
def PersistentArena.get (a : PersistentArena) (khfId : Nat) :
    Option (Nat × MappedKhf) :=
  (a.khfs.find? (fun q => q.1 = khfId)).map (fun q => q.2)

/-- `PersistentArena::insert` (arena.rs lines 111-129); an `LruCache`
insert replaces any entry under the same key. -/
def PersistentArena.insert (a : PersistentArena) (khf : MappedKhf)
    (key : Nat) : PersistentArena :=
  { a with khfs := (a.khfs.filter (fun q => q.1 ≠ khf.khfId)) ++
      [(khf.khfId, key, khf)] }

/-- In-place mutation of a resident forest through its shared
`Rc<RefCell<MappedKhf>>` handle. -/
def PersistentArena.modify (a : PersistentArena) (khfId : Nat)
    (khf2 : MappedKhf) : PersistentArena :=
  { a with
    khfs := a.khfs.map
      (fun q => if q.1 = khfId then (q.1, q.2.1, khf2) else q) }

/-- `PersistentArena::load` (arena.rs lines 137-160): serve a resident
forest, else decrypt-and-deserialize its file (`MappedKhf::load`,
mapped.rs lines 592-610) and insert it; a missing file is
`Error::LoadObjectKhf`, a wrong key fails deserialization. -/
def PersistentArena.load (a : PersistentArena) (fs : Fs)
    (khfId key : Nat) :
    Except LetheError (MappedKhf × PersistentArena) :=
  match a.get khfId with
  | some q => .ok (q.2, a)
  | none =>
      match fs.get (FsPath.khfPath a.dir khfId) with
      | none => .error .loadObjectKhf
      | some (FileData.khfFile encKey khf) =>
          if encKey = key then .ok (khf, a.insert khf key)
          else .error .load
      | some _ => .error .load

/-- `PersistentArena::remove` (arena.rs lines 162-171). -/
def PersistentArena.remove (a : PersistentArena) (fs : Fs)
    (khfId : Nat) : PersistentArena × Fs :=
  ({ a with khfs := a.khfs.filter (fun q => q.1 ≠ khfId) },
    fs.removeFile (FsPath.khfPath a.dir khfId))

/-- Modelled from the spec: `K::derive` of the engine's localized KDF
(`LocalizedBlake3KDF`, whose source is not available): a deterministic
keyed hash of the key id — exactly as the in-repository `Kht` implements
the same trait through pure root-to-leaf derivation (kht.rs
lines 53-66). -/
def kdfDerive (kdfKey : Nat) (keyId : Nat × Nat) : Nat :=
  Nat.pair kdfKey (Nat.pair keyId.1 keyId.2)

/-- `DEFAULT_SYSTEM_KHF_KEY_ID` (lethe/mod.rs lines 41-44). -/
def systemKhfKeyId : Nat × Nat := (0, u64Max)

/-- `Lethe` (lethe/mod.rs lines 126-157).  The serde-skipped LRU caches
and speculation-interval set only serve feature-gated fast paths and are
not modelled. -/
structure Lethe where
  arena : PersistentArena
  idManager : IdManager
  systemKhf : MappedKhf
  systemKhfFanouts : List Nat
  objectKhfFanouts : List Nat
  rootKeyKdf : Nat
  spanningRootKeyKdf : Nat
  fragmented : Bool
  dirtyObjectKhfs : List Nat
  rng : Nat
deriving DecidableEq

/-- `LetheBuilder::build` with the defaults of `Lethe::new`
(lethe/mod.rs lines 99-123, 173-182): the builder draws the two KDF keys
from its generator (outputs 0 and 1), while `with_rng` seeds the system
forest from a fresh generator instance. -/
def Lethe.new (dir : Nat) : Lethe :=
  { arena := { dir := dir, khfs := [], memoryLimit := 2 ^ 32 },
    idManager := { srcToDst := [], dstToSrc := [],
                   idAllocator := { curr := 0, reserved := [0] } },
    systemKhf := MappedKhf.withRng 0 u64Max 0,
    systemKhfFanouts := [4, 4, 4, 4],
    objectKhfFanouts := [4, 4, 4, 4],
    rootKeyKdf := genKeyAt 0,
    spanningRootKeyKdf := genKeyAt 1,
    fragmented := false,
    dirtyObjectKhfs := [],
    rng := 2 }

/-- `Lethe::get_object_khf` (lethe/mod.rs lines 214-246): resolve the
object to its forest-id; if not resident, derive the unlock key by a READ
derivation on the system forest and try to load — a load failure is
swallowed (`.ok()`) into `None`. -/
def Lethe.getObjectKhf (s : Lethe) (fs : Fs) (objId : Nat) :
    Except LetheError (Option Nat × Lethe) :=
  match s.idManager.resolveSrcId objId with
  | .error e => .error e
  | .ok khfId =>
      match s.arena.get khfId with
      | some _ => .ok (some khfId, s)
      | none =>
          match s.systemKhf.deriveInner khfId with
          | none => .error .nonExistentKey
          | some key =>
              match s.arena.load fs khfId key with
              | .error _ => .ok (none, s)
              | .ok (_, arena2) =>
                  .ok (some khfId, { s with arena := arena2 })

/-- `Lethe::get_object_khf_mut` (lethe/mod.rs lines 248-313): resolve or
create the mapping; a created object forest is seeded with the two roots
derived from the engine's per-epoch KDFs at the constant
`DEFAULT_SYSTEM_KHF_KEY_ID`, and inserted under a WRITE derivation on the
system forest; then the forest is fetched (marking the system forest) or
loaded. -/
def Lethe.getObjectKhfMut (s : Lethe) (fs : Fs) (objId : Nat) :
    Except LetheError (Nat × Lethe) :=
  let phase1 : Except LetheError (Nat × Lethe) :=
    match s.idManager.resolveSrcId objId with
    | .ok khfId => .ok (khfId, s)
    | .error _ =>
        match s.idManager.add objId with
        | .error e => .error e
        | .ok (khfId, im2) =>
            let rootKey := kdfDerive s.rootKeyKdf systemKhfKeyId
            let spanningRootKey :=
              kdfDerive s.spanningRootKeyKdf systemKhfKeyId
            let khf :=
              MappedKhf.withKeys khfId objId rootKey spanningRootKey
            let r := s.systemKhf.deriveMutInnerUnlogged khfId
            .ok (khfId, { s with idManager := im2, systemKhf := r.2,
                                 arena := s.arena.insert khf r.1 })
  match phase1 with
  | .error e => .error e
  | .ok (khfId, s2) =>
      match s2.arena.get khfId with
      | some _ =>
          .ok (khfId,
            { s2 with systemKhf := s2.systemKhf.markKeyInner khfId })
      | none =>
          let r := s2.systemKhf.deriveMutInnerUnlogged khfId
          match s2.arena.load fs khfId r.1 with
          | .error _ => .error .loadObjectKhf
          | .ok (_, arena2) =>
              .ok (khfId, { s2 with systemKhf := r.2, arena := arena2 })

/-- `Lethe::derive` (lethe/mod.rs lines 337-358): no forest means the key
is simply not covered (`Ok(None)`) — but an unmapped object id makes
`get_object_khf` fail at `resolve_src_id` with an ERROR.  The final `none`
arm is unreachable (the returned forest-id is resident). -/
def Lethe.derive (s : Lethe) (fs : Fs) (key : Nat × Nat) :
    Except LetheError (Option Nat × Lethe) :=
  match s.getObjectKhf fs key.1 with
  | .error e => .error e
  | .ok (none, s2) => .ok (none, s2)
  | .ok (some khfId, s2) =>
      match s2.arena.get khfId with
      | some q => .ok (q.2.deriveInner key.2, s2)
      | none => .ok (none, s2)

/-- `Lethe::derive_mut` (lethe/mod.rs lines 382-420): fetch or create the
object forest, mark the OBJECT id dirty, and derive mutably on the forest
(appending the `Update` WAL entry).  The `none` arena arm is unreachable.
The in-place forest mutation through the `Rc<RefCell>` handle is realized
by writing the updated forest back into the arena. -/
def Lethe.deriveMut (s : Lethe) (fs : Fs) (wal : List StableLogEntry)
    (key : Nat × Nat) :
    Except LetheError (Nat × Lethe × List StableLogEntry) :=
  match s.getObjectKhfMut fs key.1 with
  | .error e => .error e
  | .ok (khfId, s2) =>
      let s3 := { s2 with
        dirtyObjectKhfs := insertIdem key.1 s2.dirtyObjectKhfs }
      match s3.arena.get khfId with
      | none => .error .loadObjectKhf
      | some q =>
          let r := q.2.deriveMutInner wal key.2
          .ok (r.1,
            { s3 with arena := s3.arena.modify khfId r.2.1 }, r.2.2)

/-- `Lethe::delete_object` (lethe/mod.rs lines 785-804): unmap the object,
delete its leaf in the system forest, drop it from the arena and its file,
remove it from the dirty set — the source removes the FOREST-id
(`khf_id`), although the set holds OBJECT ids (see `derive_mut`,
line 404) — and append the `DeleteObject` WAL entry.  A missing mapping
returns `Ok(())`. -/
def Lethe.deleteObject (s : Lethe) (fs : Fs) (wal : List StableLogEntry)
    (objId : Nat) : Lethe × Fs × List StableLogEntry :=
  match s.idManager.remove objId with
  | .error _ => (s, fs, wal)
  | .ok (khfId, im2) =>
      let r := s.systemKhf.deleteInnerUnlogged khfId
      let ar := s.arena.remove fs khfId
      ({ s with idManager := im2, systemKhf := r.2, arena := ar.1,
                dirtyObjectKhfs := removeAll khfId s.dirtyObjectKhfs },
        ar.2, wal ++ [StableLogEntry.deleteObject objId])

/-- One entry of the first loop of `Lethe::update` (lethe/mod.rs lines
485-531): translate the object-level WAL into a WAL for the system forest.
`UpdateRange`/`Update`/`Delete` on an object with a forest-id mapping
append `Update { DEFAULT_SYSTEM_KHF_OBJ_ID, khf_id }`; `DeleteObject`
unmaps the object, drops its forest from the arena (and its file) and
appends `Delete { DEFAULT_SYSTEM_KHF_OBJ_ID, khf_id }`; entries on
unmapped objects are skipped. -/
def Lethe.updateSysWalStep (st : Lethe × Fs × List StableLogEntry)
    (e : StableLogEntry) : Lethe × Fs × List StableLogEntry :=
  match e with
  | .updateRange objId _ _ =>
      match st.1.idManager.resolveSrcId objId with
      | .ok khfId =>
          (st.1, st.2.1, st.2.2 ++ [StableLogEntry.update u64Max khfId])
      | .error _ => st
  | .update objId _ =>
      match st.1.idManager.resolveSrcId objId with
      | .ok khfId =>
          (st.1, st.2.1, st.2.2 ++ [StableLogEntry.update u64Max khfId])
      | .error _ => st
  | .delete objId _ =>
      match st.1.idManager.resolveSrcId objId with
      | .ok khfId =>
          (st.1, st.2.1, st.2.2 ++ [StableLogEntry.update u64Max khfId])
      | .error _ => st
  | .deleteObject objId =>
      match st.1.idManager.remove objId with
      | .ok (khfId, im2) =>
          let ar := st.1.arena.remove st.2.1 khfId
          ({ st.1 with idManager := im2, arena := ar.1 }, ar.2,
            st.2.2 ++ [StableLogEntry.delete u64Max khfId])
      | .error _ => st

/-- The per-object WAL filter of `Lethe::update` (lethe/mod.rs lines
555-564): keep `UpdateRange`/`Update`/`Delete` entries of the given
object; `DeleteObject` entries are always dropped. -/
def StableLogEntry.isForObj (objId : Nat) : StableLogEntry → Bool
  | .updateRange i _ _ => i = objId
  | .update i _ => i = objId
  | .delete i _ => i = objId
  | .deleteObject _ => false

/-- The per-forest loop of `Lethe::update` (lethe/mod.rs lines 537-568):
for each `(khf_id, khf_key)` pair returned by the system forest's
rotation, resolve the object id (a stale forest-id is skipped with
`continue`), fetch the object forest from the arena — or load it with the
returned pre-rotation unlock key, propagating a load failure (`?`) —
rotate it under the WAL filtered to its object, write the rotated forest
back through its arena handle, and collect the returned `(block, key)`
pairs tagged with the object id. -/
def Lethe.updateObjsGo (fs : Fs) (wal : List StableLogEntry) :
    Lethe → List ((Nat × Nat) × Nat) → List (Nat × Nat) →
    Except LetheError (List ((Nat × Nat) × Nat) × Lethe)
  | s, acc, [] => .ok (acc, s)
  | s, acc, (khfId, khfKey) :: rest =>
      match s.idManager.resolveDstId khfId with
      | .error _ => Lethe.updateObjsGo fs wal s acc rest
      | .ok objId =>
          match s.arena.get khfId with
          | some q =>
              let r := q.2.updateInner
                (wal.filter (StableLogEntry.isForObj objId))
              Lethe.updateObjsGo fs wal
                { s with arena := s.arena.modify khfId r.2 }
                (acc ++ r.1.map (fun bk => ((objId, bk.1), bk.2))) rest
          | none =>
              match s.arena.load fs khfId khfKey with
              | .error e => .error e
              | .ok (khf, arena2) =>
                  let r := khf.updateInner
                    (wal.filter (StableLogEntry.isForObj objId))
                  Lethe.updateObjsGo fs wal
                    { s with arena := arena2.modify khf.khfId r.2 }
                    (acc ++ r.1.map (fun bk => ((objId, bk.1), bk.2))) rest

/-- `Lethe::update` (lethe/mod.rs lines 476-584): translate the WAL for
the system forest (unmapping deleted objects on the way), rotate the
system forest to obtain the dirty forest-ids with their pre-rotation
unlock keys, rotate each surviving object forest under its filtered WAL
collecting the per-block pre-rotation keys, and finally re-seed both
per-epoch KDFs from the RNG.  (The feature-gated cache and
speculation-interval clears are not modelled.) -/
def Lethe.update (s : Lethe) (fs : Fs) (wal : List StableLogEntry) :
    Except LetheError (List ((Nat × Nat) × Nat) × Lethe × Fs) :=
  let st1 := wal.foldl Lethe.updateSysWalStep (s, fs, [])
  let r := st1.1.systemKhf.updateInner st1.2.2
  match Lethe.updateObjsGo st1.2.1 wal
      { st1.1 with systemKhf := r.2 } [] r.1 with
  | .error e => .error e
  | .ok (keys, s2) =>
      .ok (keys,
        { s2 with rootKeyKdf := genKeyAt s2.rng,
                  spanningRootKeyKdf := genKeyAt (s2.rng + 1),
                  rng := s2.rng + 2 },
        st1.2.1)

/-- The invariant `PersistentArena::insert` maintains: every resident
forest is keyed by its own forest-id (arena.rs lines 111-129 insert under
`khf.khf_id`). -/
@[reducible] def PersistentArena.consistent (a : PersistentArena) : Prop :=
  ∀ q ∈ a.khfs, (q.2.2 : MappedKhf).khfId = q.1

/-- The invariant `persist` maintains on disk: the forest file at
`khf_path(khf_id)` holds a forest whose own id is `khf_id` (each forest is
written at its own path, lethe/mod.rs lines 700-724). -/
@[reducible] def Fs.khfFilesConsistent (fs : Fs) : Prop :=
  ∀ p ∈ fs.files, ∀ dir khfId encKey khf,
    p.1 = FsPath.khfPath dir khfId → p.2 = FileData.khfFile encKey khf →
    khf.khfId = khfId

/-- The serde-visible view of the engine state (see `LethePersisted`). -/
def Lethe.persistView (s : Lethe) : LethePersisted :=
  { arenaDir := s.arena.dir, arenaMemoryLimit := s.arena.memoryLimit,
    idManager := s.idManager, systemKhf := s.systemKhf,
    systemKhfFanouts := s.systemKhfFanouts,
    objectKhfFanouts := s.objectKhfFanouts,
    rootKeyKdf := s.rootKeyKdf,
    spanningRootKeyKdf := s.spanningRootKeyKdf,
    fragmented := s.fragmented }

/-- One iteration of the dirty-forest loop of `Lethe::persist`
(lethe/mod.rs lines 693-713): fetch the forest (anything but
`Ok(Some(..))` is skipped with `continue`), derive its unlock key by an
unlogged WRITE derivation on the system forest, and write the encrypted
forest to `<dir>/<khf_id>.khf`. -/
def persistOne (dir : Nat) (acc : Lethe × Fs) (objId : Nat) :
    Lethe × Fs :=
  match acc.1.getObjectKhf acc.2 objId with
  | .ok (some khfId, s2) =>
      let r := s2.systemKhf.deriveMutInnerUnlogged khfId
      let s3 := { s2 with systemKhf := r.2 }
      match s3.arena.get khfId with
      | some q =>
          (s3, acc.2.set (FsPath.khfPath dir khfId)
            (FileData.khfFile r.1 q.2))
      | none => (s3, acc.2)
  | .ok (none, s2) => (s2, acc.2)
  | .error _ => acc

/-- `Lethe::persist` (lethe/mod.rs lines 689-739): create the directory,
persist every dirty object forest, clear the dirty set, then write the
root-key-encrypted serialized engine state to `<dir>/state`. -/
def Lethe.persist (s : Lethe) (fs : Fs) (rootKey : Nat) (dir : Nat) :
    Lethe × Fs :=
  let fs1 := fs.createDirAll dir
  let acc := s.dirtyObjectKhfs.foldl (persistOne dir) (s, fs1)
  let s2 := { acc.1 with dirtyObjectKhfs := [] }
  (s2, acc.2.set (FsPath.statePath dir)
    (FileData.stateFile rootKey s2.persistView))

/-- Deserialization of a persisted engine state (the `Deserialize` side of
lethe/mod.rs lines 126-157 and arena.rs lines 198-210): serde-skipped
fields take their defaults — empty arena cache, empty caches and dirty
set, default RNG. -/
def Lethe.rehydrate (p : LethePersisted) : Lethe :=
  { arena := { dir := p.arenaDir, khfs := [],
               memoryLimit := p.arenaMemoryLimit },
    idManager := p.idManager, systemKhf := p.systemKhf,
    systemKhfFanouts := p.systemKhfFanouts,
    objectKhfFanouts := p.objectKhfFanouts,
    rootKeyKdf := p.rootKeyKdf,
    spanningRootKeyKdf := p.spanningRootKeyKdf,
    fragmented := p.fragmented, dirtyObjectKhfs := [], rng := 0 }

/-- `Lethe::load` (lethe/mod.rs lines 741-767): `fs::metadata(&path)`
failing — the ENGINE DIRECTORY itself missing — yields a fresh engine;
otherwise the metadata file `<path>/state` is opened (a missing file is an
I/O error), decrypted with the root key and deserialized. -/
def Lethe.load (rootKey : Nat) (fs : Fs) (path : Nat) :
    Except LetheError Lethe :=
  if fs.dirs.contains path = false then .ok (Lethe.new path)
  else
    match fs.get (FsPath.statePath path) with
    | none => .error .io
    | some (FileData.stateFile encKey p) =>
        if encKey = rootKey then .ok (Lethe.rehydrate p)
        else .error .load
    | some _ => .error .load

/-- The empty filesystem. -/
def fsEmpty : Fs := { dirs := [], files := [] }

/-- A filesystem whose engine directory 7 exists but holds no metadata
file. -/
def fsDirOnly : Fs := { dirs := [7], files := [] }

/-- A fresh engine rooted at directory 0. -/
def letheFresh : Lethe := Lethe.new 0

/-- The engine after `derive_mut((5, 0))` on the fresh engine (the first
write to object 5, which allocates forest-id 1). -/
def letheEx1 : Lethe :=
  match letheFresh.deriveMut fsEmpty [] (5, 0) with
  | .ok r => r.2.1
  | .error _ => letheFresh

/-- The engine after additionally `derive_mut((9, 0))` (first write to a
second object, forest-id 2, same epoch). -/
def letheEx2 : Lethe :=
  match letheEx1.deriveMut fsEmpty [] (9, 0) with
  | .ok r => r.2.1
  | .error _ => letheEx1

/-- The engine after `delete_object(5)` on `letheEx1`. -/
def letheEx3 : Lethe := (letheEx1.deleteObject fsEmpty [] 5).1

/-- The engine after `get_object_khf_mut(5)` on the fresh engine. -/
def letheS1 : Lethe :=
  match letheFresh.getObjectKhfMut fsEmpty 5 with
  | .ok r => r.2
  | .error _ => letheFresh

/-- The engine after additionally `get_object_khf_mut(9)`. -/
def letheS2 : Lethe :=
  match letheS1.getObjectKhfMut fsEmpty 9 with
  | .ok r => r.2
  | .error _ => letheS1

/-- The concrete epoch rotation for C2: `update()` on the engine holding
one write to object 5, under the WAL that write appended. -/
def letheU : Except LetheError (List ((Nat × Nat) × Nat) × Lethe × Fs) :=
  letheEx1.update fsEmpty [StableLogEntry.update 5 0]

/-- The pairs `letheU` returned. -/
def letheUPairs : List ((Nat × Nat) × Nat) :=
  match letheU with
  | .ok r => r.1
  | .error _ => []

/-- The engine state after `letheU`. -/
def letheUState : Lethe :=
  match letheU with
  | .ok r => r.2.1
  | .error _ => letheEx1

/-- The filesystem after `letheU`. -/
def letheUFs : Fs :=
  match letheU with
  | .ok r => r.2.2
  | .error _ => fsEmpty

/-! ## The padded keyed crypto I/O adapter and the scraper

`IvCryptIo` is translated from
`src/lib/kms/src/io/crypt/keyed/padded.rs`, the scraper from
`src/lib/kms/src/io/crypt/scrape.rs`, and the dirty-marked speculative IV
table from `src/lib/kms/src/io/crypt/speculative.rs` (lines 73-89).  The
storage backend, cipher and IV generator are external capabilities and are
modelled from the spec.  Loops are embedded with explicit fuel (supplied
as the processed length by each wrapper, which the loop never exhausts);
this keeps every definition structurally recursive and executable. -/

/-- Modelled from the spec: the block-storage backend (spec section 6) as
an infinite byte-addressable store; reads return the full requested count
(a zero-filled disk).  Short reads are a property of growing file-backed
stores and out of scope of the adapter claims. -/
structure Disk where
  data : Nat → Nat

/-- `read_at(buf, offset)` of the backend. -/
def Disk.readAt (d : Disk) (len off : Nat) : List Nat :=
  (List.range len).map (fun i => d.data (off + i))

/-- `write_at(buf, offset)` of the backend; the count written is
`buf.length`. -/
def Disk.writeAt (d : Disk) (buf : List Nat) (off : Nat) : Disk :=
  ⟨fun i =>
    if off ≤ i ∧ i < off + buf.length then buf.getD (i - off) 0
    else d.data i⟩

/-- Positional XOR with a keystream, starting at stream index `i`. -/
def xorStream (f : Nat → Nat) : Nat → List Nat → List Nat
  | _, [] => []
  | i, b :: rest => (b ^^^ f i) :: xorStream f (i + 1) rest

/-- Modelled from the spec: the `StatefulCrypter` capability — a keyed
CTR-style stream cipher: `encrypt(key, iv, data)` XORs `data` positionally
with the keystream `ks key iv`, and `decrypt` is the same operation. -/
def cryptSector (ks : Nat → List Nat → Nat → Nat) (key : Nat)
    (iv data : List Nat) : List Nat :=
  xorStream (ks key iv) 0 data

/-- Modelled from the spec: `SequentialIvg` — the n-th generated IV is the
little-endian counter `n`, `ivl` bytes wide. -/
def ivBytes (ivl n : Nat) : List Nat :=
  (List.range ivl).map (fun j => n / 256 ^ j % 256)

/-- `*last_byte |= 0x80` of speculative.rs lines 79-83: set the dirty
marker in the last byte of an IV. -/
def markDirtyIv (iv : List Nat) : List Nat :=
  iv.dropLast ++ [iv.getLastD 0 ||| 128]

/-- The dirty-marked per-sector IV table built by
`SpeculativePreCryptAt::new` for a write (speculative.rs lines 73-89):
one fresh generator output per sector of the range, each with the marker
bit set (the source asserts the generated last byte is zero, then ORs in
`0x80`); `PreRecrypter::encrypt` (lines 328-354) copies these IVs verbatim
onto the written sectors. -/
def specSectorIvs (ivl g startSector endSector : Nat) : List (List Nat) :=
  (List.range (endSector - startSector)).map
    (fun k => markDirtyIv (ivBytes ivl (g + k)))

/-- `logical_sector_to_block` (speculative.rs lines 135-137, scrape.rs
lines 23-25). -/
def logicalSectorToBlock (S ivl BS sector : Nat) : Nat :=
  sector * sectorDataSize S ivl / BS

/-- The decrypt loop of `IvCryptIo::read_inner` (padded.rs lines 110-128):
process the ciphertext in sectors of up to `SECTOR_SIZE` bytes, splitting
each at the IV length and decrypting the payload with the stored IV.  (The
source's `split_at` panics on a chunk shorter than the IV; the embedding
totalizes it — the adapter only produces longer chunks, as the lemmas
show.) -/
def decryptChunksGo (S ivl : Nat) (ks : Nat → List Nat → Nat → Nat)
    (key : Nat) : Nat → List Nat → List Nat
  | 0, _ => []
  | _ + 1, [] => []
  | fuel + 1, b :: rest =>
      cryptSector ks key (((b :: rest).take S).take ivl)
          (((b :: rest).take S).drop ivl) ++
        decryptChunksGo S ivl ks key fuel ((b :: rest).drop S)

/-- The decrypt loop run to completion (fuel = input length suffices for
any positive sector size). -/
def decryptChunks (S ivl : Nat) (ks : Nat → List Nat → Nat → Nat)
    (key : Nat) (ct : List Nat) : List Nat :=
  decryptChunksGo S ivl ks key ct.length ct

/-- `IvCryptIo::read_inner` (padded.rs lines 81-135) over the modelled
disk: read the covering ciphertext, decrypt it sector by sector, and
return the count together with the bytes copied to the caller
(`buf[..count] = pt[padding..]`). -/
def readInner (S ivl : Nat) (ks : Nat → List Nat → Nat → Nat)
    (key : Nat) (d : Disk) (len origin : Nat) : Nat × List Nat :=
  let D := sectorDataSize S ivl
  let padding := logicalSectorPadding D origin
  let totalSectors := logicalSectorCount D (padding + len)
  let totalBytes := padding + len + logicalSectorIvPadding ivl totalSectors
  let startOffset := realSectorOffset S D origin
  let ct := d.readAt totalBytes startOffset
  let pt := decryptChunks S ivl ks key ct
  (pt.length - padding, pt.drop padding)

/-- The head-padding read loop of `IvCryptIo::write_inner` (padded.rs
lines 157-175): read the start of the first logical sector through the
adapter's own `read_at` until `padding` bytes are gathered, appending the
`n` valid bytes of each read; a zero-length read breaks out. -/
def headReadLoopGo (S ivl : Nat) (ks : Nat → List Nat → Nat → Nat)
    (key : Nat) (d : Disk) (readOffset : Nat) :
    Nat → Nat → List Nat
  | 0, _ => []
  | _ + 1, 0 => []
  | fuel + 1, toRead + 1 =>
      let r := readInner S ivl ks key d (toRead + 1) readOffset
      if r.1 = 0 then []
      else r.2.take r.1 ++
        headReadLoopGo S ivl ks key d readOffset fuel (toRead + 1 - r.1)

/-- The encrypt loop of `IvCryptIo::write_inner` (padded.rs lines
196-212): consume the plaintext in chunks of the sector data size,
generate one fresh IV per sector from the generator state, and emit the IV
followed by the encrypted chunk.  Returns the ciphertext and the advanced
generator state. -/
def encryptChunksGo (S ivl : Nat) (ks : Nat → List Nat → Nat → Nat)
    (key : Nat) : Nat → Nat → List Nat → List Nat × Nat
  | 0, g, _ => ([], g)
  | _ + 1, g, [] => ([], g)
  | fuel + 1, g, b :: rest =>
      let iv := ivBytes ivl g
      let r := encryptChunksGo S ivl ks key fuel (g + 1)
        ((b :: rest).drop (sectorDataSize S ivl))
      (iv ++ cryptSector ks key iv
          ((b :: rest).take (sectorDataSize S ivl)) ++ r.1,
        r.2)

/-- The encrypt loop run to completion. -/
def encryptChunks (S ivl : Nat) (ks : Nat → List Nat → Nat → Nat)
    (key : Nat) (g : Nat) (pt : List Nat) : List Nat × Nat :=
  encryptChunksGo S ivl ks key pt.length g pt

/-- The head-gathering step of `IvCryptIo::write_inner` (padded.rs lines
148-175): when the write starts mid-sector, read the bytes of the first
logical sector that precede it through the adapter's own `read_at`
(read-modify-write). -/
def writeHead (S ivl : Nat) (ks : Nat → List Nat → Nat → Nat)
    (key : Nat) (d : Disk) (origin : Nat) : List Nat :=
  let D := sectorDataSize S ivl
  let padding := logicalSectorPadding D origin
  if 0 < padding then
    headReadLoopGo S ivl ks key d (logicalSectorOffset D origin)
      padding padding
  else []

/-- The tail-gathering step of `IvCryptIo::write_inner` (padded.rs lines
177-194): when the combined head-padding-plus-payload ends mid-sector,
read the final logical sector through the adapter's own `read_at` and keep
its still-valid bytes past the write's end. -/
def writeTail (S ivl : Nat) (ks : Nat → List Nat → Nat → Nat)
    (key : Nat) (d : Disk) (buf : List Nat) (origin : Nat) : List Nat :=
  let D := sectorDataSize S ivl
  let pt1 := writeHead S ivl ks key d origin ++ buf
  let lastSectorIndex := logicalSectorOffset D pt1.length
  let lastSectorOffset := logicalSectorOffset D origin + lastSectorIndex
  let extra := logicalSectorPadding D pt1.length
  if 0 < extra then
    let r := readInner S ivl ks key d D lastSectorOffset
    if extra < r.1 then (r.2.take r.1).drop extra else []
  else []

/-- `IvCryptIo::write_inner` (padded.rs lines 137-229) over the modelled
disk and IV generator: gather the head padding of an unaligned start
(read-modify-write), append the caller's bytes, gather the still-valid
tail of the final partial sector, encrypt sector by sector with fresh
generator IVs, write the ciphertext at the covering sector-aligned offset,
and report the count net of head padding, IV padding and tail bytes.
Returns (disk, generator state, count). -/
def writeInner (S ivl : Nat) (ks : Nat → List Nat → Nat → Nat)
    (key : Nat) (d : Disk) (g : Nat) (buf : List Nat) (origin : Nat) :
    Disk × Nat × Nat :=
  let D := sectorDataSize S ivl
  let startOffset := realSectorOffset S D origin
  let ptHead := writeHead S ivl ks key d origin
  let realPadding := ptHead.length
  let tail := writeTail S ivl ks key d buf origin
  let realExtra := tail.length
  let pt := ptHead ++ buf ++ tail
  let enc := encryptChunks S ivl ks key g pt
  let d2 := d.writeAt enc.1 startOffset
  let n := enc.1.length
  let count := n - (realPadding +
    logicalSectorIvPadding ivl (realSectorCount S n) + realExtra)
  (d2, enc.2, count)

/-- The loop of `ModifiedBlockScraper::scrape` (scrape.rs lines 34-53):
read the file sector by sector; a sector whose stored IV has the `0x80`
bit set in its last byte reports its block (deduplicating consecutive
repeats). -/
def scrapeGo (S ivl BS : Nat) :
    Nat → List Nat → Nat → List Nat → List Nat
  | _, acc, _, [] => acc
  | 0, acc, _, _ :: _ => acc
  | fuel + 1, acc, sector, b :: rest =>
      let iv := ((b :: rest).take S).take ivl
      let acc2 :=
        if (iv.getLastD 0).land 128 > 0 then
          let sectorBlock := logicalSectorToBlock S ivl BS sector
          if acc.getLast? = some sectorBlock then acc
          else acc ++ [sectorBlock]
        else acc
      scrapeGo S ivl BS fuel acc2 (sector + 1) ((b :: rest).drop S)

/-- `ModifiedBlockScraper::scrape` over an explicit file image. -/
def scrape (S ivl BS : Nat) (file : List Nat) : List Nat :=
  scrapeGo S ivl BS file.length [] 0 file

/-- The all-zero keystream used in concrete runs (the cipher is an
external capability; the claims do not depend on the keystream). -/
def ksZero : Nat → List Nat → Nat → Nat := fun _ _ _ => 0

/-- A zero-filled disk. -/
def zeroDisk : Disk := ⟨fun _ => 0⟩

/-- Ceiling-rounding a quantity up to whole chunks never loses bytes. -/
theorem le_ceil_div_mul (CH x : Nat) (h : 0 < CH) :
    x ≤ ((x + (CH - 1)) / CH) * CH := by
  rcases Nat.eq_zero_or_pos x with hx | hx
  · simp [hx]
  · have h1 : x + (CH - 1) = (x - 1) + CH := by omega
    rw [h1, Nat.add_div_right _ h, Nat.succ_mul, Nat.mul_comm]
    have h2 := Nat.div_add_mod (x - 1) CH
    have h3 := Nat.mod_lt (x - 1) h
    omega

/-- The inclusive end of `sector_range` is the ceiling of
`(off + len) / D`. -/
theorem sectorRange_snd (D off len : Nat) (hD : 0 < D) :
    (sectorRange D off len).2 = (off + len + (D - 1)) / D := by
  unfold sectorRange logicalSectorPadding logicalSectorCount
    logicalSectorIndex
  have h := Nat.div_add_mod off D
  have : off + len + (D - 1) = D * (off / D) + (off % D + len + (D - 1)) := by
    omega
  rw [this, Nat.mul_add_div hD]

/-- Claim C6: for every requested `(offset, len)`, the chunk-aligned
speculation range computed by `SpeculativePreCryptAt::speculation_range`
fully contains the requested sector range computed by `sector_range`:
`spec_start_sector <= start_sector` and `end_sector <= spec_end_sector`.
Hence the containment assertion in `SpeculativePreCryptAt::new`
(speculative.rs lines 58-61) never fails, for any input, and a sub-range is
never served from a speculation table that only partially covers it.  The
hypotheses say that the IV length is smaller than the sector size (so the
sector data size is positive) and that the speculation chunk size is
positive, which hold for the crate's constants. -/
theorem speculation_range_contains_sector_range
    (S ivl CH off len : Nat) (hS : ivl < S) (hCH : 0 < CH) :
    (speculationRange (sectorDataSize S ivl) CH off len).1 ≤
        (sectorRange (sectorDataSize S ivl) off len).1 ∧
      (sectorRange (sectorDataSize S ivl) off len).2 ≤
        (speculationRange (sectorDataSize S ivl) CH off len).2 := by
  set D := sectorDataSize S ivl with hDdef
  have hD0 : 0 < D := by
    simp only [hDdef, sectorDataSize]; omega
  refine ⟨?_, ?_⟩
  · simp only [speculationRange, sectorRange, logicalSectorIndex]
    exact Nat.div_le_div_right (Nat.div_mul_le_self off CH)
  · simp only [speculationRange]
    rw [sectorRange_snd D off len hD0,
      sectorRange_snd D (off / CH * CH) ((off % CH + len + (CH - 1)) / CH * CH)
        hD0]
    apply Nat.div_le_div_right
    have h1 := le_ceil_div_mul CH (off % CH + len) hCH
    have h2 := Nat.div_add_mod off CH
    have h3 : off / CH * CH = CH * (off / CH) := Nat.mul_comm _ _
    omega

/-- Witness for C6 at a concrete boundary-crossing input. -/
theorem speculation_range_contains_sector_range_witness :
    1 < 4 ∧ 0 < 8 ∧
      ((speculationRange (sectorDataSize 4 1) 8 5 10).1 ≤
          (sectorRange (sectorDataSize 4 1) 5 10).1 ∧
        (sectorRange (sectorDataSize 4 1) 5 10).2 ≤
          (speculationRange (sectorDataSize 4 1) 8 5 10).2) :=
  ⟨by decide, by decide,
    speculation_range_contains_sector_range 4 1 8 5 10 (by decide) (by decide)⟩

/-! ### Association-list and update-loop lemmas -/

theorem setKey_cons (x : Nat × Nat) (l : List (Nat × Nat)) (b v : Nat) :
    setKey (x :: l) b v = (if x.1 = b then (x.1, v) else x) :: setKey l b v :=
  rfl

theorem lookup_pair_cons (a k v : Nat) (l : List (Nat × Nat)) :
    List.lookup a ((k, v) :: l) =
      if a = k then some v else List.lookup a l := by
  by_cases h : a = k
  · simp [List.lookup_cons, h]
  · simp [List.lookup_cons, beq_false_of_ne h, h]

theorem mem_of_lookup_assoc {keys : List (Nat × Nat)} {a k : Nat}
    (h : keys.lookup a = some k) : (a, k) ∈ keys := by
  induction keys with
  | nil => simp [List.lookup] at h
  | cons p rest ih =>
      rw [show p = (p.1, p.2) from rfl] at h ⊢
      rw [lookup_pair_cons] at h
      by_cases hab : a = p.1
      · rw [if_pos hab] at h
        subst hab
        simp [← Option.some_inj.mp h]
      · rw [if_neg hab] at h
        exact List.mem_cons_of_mem _ (ih h)

theorem lookup_setKey_ne {keys : List (Nat × Nat)} {a b v : Nat}
    (h : a ≠ b) : (setKey keys b v).lookup a = keys.lookup a := by
  induction keys with
  | nil => rfl
  | cons p rest ih =>
      rw [setKey_cons]
      by_cases hpb : p.1 = b
      · rw [if_pos hpb, lookup_pair_cons,
          if_neg (fun he => h (he.trans hpb))]
        conv_rhs => rw [show p = (p.1, p.2) from rfl, lookup_pair_cons]
        rw [if_neg (fun he => h (he.trans hpb))]
        exact ih
      · rw [if_neg hpb]
        rw [show p = (p.1, p.2) from rfl]
        rw [lookup_pair_cons, lookup_pair_cons]
        by_cases hap : a = p.1
        · rw [if_pos hap, if_pos hap]
        · rw [if_neg hap, if_neg hap]
          exact ih

theorem lookup_setKey_self {keys : List (Nat × Nat)} {a v k : Nat}
    (h : keys.lookup a = some k) : (setKey keys a v).lookup a = some v := by
  induction keys with
  | nil => simp [List.lookup] at h
  | cons p rest ih =>
      rw [show p = (p.1, p.2) from rfl] at h ⊢
      rw [lookup_pair_cons] at h
      rw [setKey_cons]
      by_cases hap : a = p.1
      · rw [if_pos hap.symm, lookup_pair_cons, if_pos hap]
      · rw [if_neg (fun he => hap he.symm), lookup_pair_cons, if_neg hap]
        rw [if_neg hap] at h
        exact ih h

theorem mem_setKey {keys : List (Nat × Nat)} {b v : Nat} {p : Nat × Nat}
    (h : p ∈ setKey keys b v) : p.2 = v ∨ p ∈ keys := by
  simp only [setKey, List.mem_map] at h
  obtain ⟨q, hq, hfq⟩ := h
  by_cases hqb : q.1 = b
  · simp [hqb] at hfq
    left; rw [← hfq]
  · simp [hqb] at hfq
    right; rw [← hfq]; exact hq

theorem updateGo_pairs (ids : List Nat) :
    ∀ keys rng, ids.Nodup →
      (updateGo keys rng ids).1 =
        ids.filterMap
          (fun id => (keys.lookup id).map (fun k => (id, k))) := by
  induction ids with
  | nil => intro keys rng _; rfl
  | cons id rest ih =>
      intro keys rng hnd
      rw [List.nodup_cons] at hnd
      obtain ⟨hid, hrest⟩ := hnd
      simp only [updateGo, List.filterMap_cons]
      cases hcase : keys.lookup id with
      | none =>
          simp only [Option.map_none]
          exact ih _ _ hrest
      | some k =>
          simp only [Option.map_some]
          rw [ih _ _ hrest]
          congr 1
          apply List.filterMap_congr
          intro x hx
          rw [lookup_setKey_ne (by intro hxe; subst hxe; exact hid hx)]

theorem updateGo_lookup_preserved (ids : List Nat) :
    ∀ keys rng (id : Nat), (∀ i ∈ ids, i ≠ id) →
      (updateGo keys rng ids).2.1.lookup id = keys.lookup id := by
  induction ids with
  | nil => intro keys rng id _; rfl
  | cons i rest ih =>
      intro keys rng id hne
      simp only [updateGo]
      cases hcase : keys.lookup i with
      | none => exact ih _ _ _ (fun j hj => hne j (List.mem_cons_of_mem _ hj))
      | some k =>
          simp only
          rw [ih _ _ _ (fun j hj => hne j (List.mem_cons_of_mem _ hj))]
          exact lookup_setKey_ne (Ne.symm (hne i (List.mem_cons_self i rest)))

theorem updateGo_lookup_fresh (ids : List Nat) :
    ∀ keys rng, ids.Nodup → ∀ id ∈ ids, ∀ k, keys.lookup id = some k →
      ∃ v, (updateGo keys rng ids).2.1.lookup id = some v ∧ rng ≤ v := by
  induction ids with
  | nil => intro _ _ _ id hid; exact absurd hid (List.not_mem_nil id)
  | cons i rest ih =>
      intro keys rng hnd id hid k hk
      rw [List.nodup_cons] at hnd
      obtain ⟨hni, hrest⟩ := hnd
      rcases List.mem_cons.mp hid with hidi | hidr
      · subst hidi
        simp only [updateGo, hk]
        refine ⟨genKeyAt rng, ?_, Nat.le_refl _⟩
        rw [updateGo_lookup_preserved rest _ _ _
            (by intro j hj hje; subst hje; exact hni hj)]
        exact lookup_setKey_self hk
      · have hne : id ≠ i := fun h => hni (h ▸ hidr)
        simp only [updateGo]
        cases hcase : keys.lookup i with
        | none =>
            exact ih _ _ hrest id hidr k hk
        | some k1 =>
            simp only
            obtain ⟨v, hv, hle⟩ := ih (setKey keys i (genKeyAt rng)) (rng + 1)
              hrest id hidr k (by rw [lookup_setKey_ne hne]; exact hk)
            exact ⟨v, hv, Nat.le_of_succ_le hle⟩

/-! ### Claims C2 and C4 -/

/-- Counterexample to claim C2 as stated: on a fresh `StableKeyMap`,
`derive_mut(0)` stores generator output 0 as the key of id 0; the following
`update()` returns the pair `(0, 0)` — the PRE-rotation key — while the key
the scheme yields for id 0 after the rotation is 1. -/
theorem stableKeyMap_update_new_key_counterexample :
    (skmEx1.update).1 = [(0, 0)] ∧
      (skmEx1.update).2.keys.lookup 0 = some 1 ∧ (0 : Nat) ≠ 1 := by decide

/-- Claim C4 at the failing input: after `derive_mut(0)` and one
`update()`, the marked set still holds id 0 (the source never clears
`updated_keys`), so a second `update()` with no intervening mutation
returns the pair `(0, 1)` and regenerates the stored key of id 0 to 2 —
the claim (and the spec's epoch-isolation invariant) says it must
regenerate nothing. -/
theorem stableKeyMap_second_update_regenerates :
    skmEx2.updatedKeys = [0] ∧
      (skmEx2.update).1 = [(0, 1)] ∧
      (skmEx2.update).2.keys.lookup 0 = some 2 := by decide

/-! ### Set-list lemmas and the C3 replay analysis -/

theorem mem_insertIdem {l : List Nat} {a x : Nat} :
    x ∈ insertIdem a l ↔ x = a ∨ x ∈ l := by
  by_cases ha : a ∈ l
  · simp only [insertIdem, if_pos ha]
    exact ⟨fun h => Or.inr h, fun h => h.elim (fun he => he ▸ ha) id⟩
  · simp only [insertIdem, if_neg ha, List.mem_append,
      List.mem_singleton]
    exact or_comm

theorem insertIdem_nodup {l : List Nat} (a : Nat) (h : l.Nodup) :
    (insertIdem a l).Nodup := by
  by_cases ha : a ∈ l
  · simpa only [insertIdem, if_pos ha] using h
  · simp only [insertIdem, if_neg ha]
    rw [List.nodup_append]
    refine ⟨h, List.nodup_singleton a, ?_⟩
    intro x hx hxa
    rw [List.mem_singleton] at hxa
    exact ha (hxa ▸ hx)

theorem mem_removeAll {l : List Nat} {a x : Nat} :
    x ∈ removeAll a l ↔ x ∈ l ∧ x ≠ a := by
  simp [removeAll, List.mem_filter]

theorem removeAll_nodup {l : List Nat} (a : Nat) (h : l.Nodup) :
    (removeAll a l).Nodup :=
  h.filter _

theorem rangeFold_spec (ids : List Nat) :
    ∀ st : KhfState × List Nat,
      ((ids.foldl (fun st2 keyId =>
            (st2.1.markKeyInner keyId, insertIdem keyId st2.2)) st).1.rootKey
          = st.1.rootKey ∧
        (ids.foldl (fun st2 keyId =>
            (st2.1.markKeyInner keyId, insertIdem keyId st2.2))
              st).1.spanningRootKey = st.1.spanningRootKey ∧
        (ids.foldl (fun st2 keyId =>
            (st2.1.markKeyInner keyId, insertIdem keyId st2.2)) st).1.numKeys
          = st.1.numKeys) ∧
      (st.2.Nodup →
        (ids.foldl (fun st2 keyId =>
          (st2.1.markKeyInner keyId, insertIdem keyId st2.2)) st).2.Nodup) ∧
      (∀ x, x ∈ (ids.foldl (fun st2 keyId =>
          (st2.1.markKeyInner keyId, insertIdem keyId st2.2)) st).2 ↔
        x ∈ st.2 ∨ x ∈ ids) := by
  induction ids with
  | nil => intro st; exact ⟨⟨rfl, rfl, rfl⟩, fun h => h, fun x => by simp⟩
  | cons i rest ih =>
      intro st
      simp only [List.foldl_cons]
      obtain ⟨⟨h1, h2, h3⟩, hnd, hmem⟩ :=
        ih (st.1.markKeyInner i, insertIdem i st.2)
      refine ⟨⟨h1.trans rfl, h2.trans rfl, h3.trans rfl⟩, ?_, ?_⟩
      · intro hst
        exact hnd (insertIdem_nodup i hst)
      · intro x
        rw [hmem x, mem_insertIdem, List.mem_cons]
        tauto

theorem replayStep_update_spec (e : StableLogEntry)
    (he : e.isUpdateEntry = true) (st : KhfState × List Nat) :
    ((replayStep st e).1.rootKey = st.1.rootKey ∧
      (replayStep st e).1.spanningRootKey = st.1.spanningRootKey ∧
      (replayStep st e).1.numKeys = st.1.numKeys) ∧
    (st.2.Nodup → (replayStep st e).2.Nodup) ∧
    (∀ x, x ∈ (replayStep st e).2 ↔ x ∈ st.2 ∨ e.targets x) := by
  cases e with
  | updateRange id startBlock endBlock =>
      simp only [replayStep, StableLogEntry.targets]
      obtain ⟨hf, hnd, hmem⟩ :=
        rangeFold_spec (List.range' startBlock (endBlock - startBlock)) st
      refine ⟨hf, hnd, ?_⟩
      intro x
      rw [hmem x]
      refine or_congr Iff.rfl ?_
      rw [List.mem_range'_1]
      omega
  | update id block =>
      simp only [replayStep, StableLogEntry.targets]
      refine ⟨⟨rfl, rfl, rfl⟩, ?_, ?_⟩
      · exact fun h => insertIdem_nodup block h
      · intro x
        exact mem_insertIdem.trans or_comm
  | delete id block => simp [StableLogEntry.isUpdateEntry] at he
  | deleteObject id => simp [StableLogEntry.isUpdateEntry] at he

theorem replayFold_spec (wal : List StableLogEntry)
    (hupd : ∀ e ∈ wal, e.isUpdateEntry = true) :
    ∀ st : KhfState × List Nat,
      ((wal.foldl replayStep st).1.rootKey = st.1.rootKey ∧
        (wal.foldl replayStep st).1.spanningRootKey =
          st.1.spanningRootKey ∧
        (wal.foldl replayStep st).1.numKeys = st.1.numKeys) ∧
      (st.2.Nodup → (wal.foldl replayStep st).2.Nodup) ∧
      (∀ x, x ∈ (wal.foldl replayStep st).2 ↔
        x ∈ st.2 ∨ ∃ e ∈ wal, e.targets x) := by
  induction wal with
  | nil =>
      intro st
      exact ⟨⟨rfl, rfl, rfl⟩, fun h => h, fun x => by simp⟩
  | cons e rest ih =>
      intro st
      have he : e.isUpdateEntry = true := hupd e (List.mem_cons_self e rest)
      have hrest : ∀ e2 ∈ rest, e2.isUpdateEntry = true :=
        fun e2 h2 => hupd e2 (List.mem_cons_of_mem _ h2)
      simp only [List.foldl_cons]
      obtain ⟨⟨s1, s2, s3⟩, snd, smem⟩ := replayStep_update_spec e he st
      obtain ⟨⟨h1, h2, h3⟩, hnd, hmem⟩ := ih hrest (replayStep st e)
      refine ⟨⟨h1.trans s1, h2.trans s2, h3.trans s3⟩,
        fun h => hnd (snd h), ?_⟩
      intro x
      rw [hmem x, smem x]
      simp only [List.mem_cons]
      constructor
      · rintro ((hx | hx) | ⟨e2, he2, ht⟩)
        · exact Or.inl hx
        · exact Or.inr ⟨e, Or.inl rfl, hx⟩
        · exact Or.inr ⟨e2, Or.inr he2, ht⟩
      · rintro (hx | ⟨e2, (rfl | he2), ht⟩)
        · exact Or.inl (Or.inl hx)
        · exact Or.inl (Or.inr ht)
        · exact Or.inr ⟨e2, he2, ht⟩

/-- Counterexample to claim C3 as stated: on a two-leaf forest, replaying
`[Update block 0, Delete block 0]` through `MappedKhf::update_inner`
yields no rotated pair (the delete un-marks the block), while the permuted
log `[Delete block 0, Update block 0]` yields the pair for block 0 — the
result depends on the order of the entries. -/
theorem mappedKhf_update_order_counterexample :
    (khfEx.updateInner
        [StableLogEntry.update 0 0, StableLogEntry.delete 0 0]).1 = [] ∧
    (khfEx.updateInner
        [StableLogEntry.delete 0 0, StableLogEntry.update 0 0]).1 =
      [(0, kdf 3 0)] ∧
    ([StableLogEntry.update 0 0, StableLogEntry.delete 0 0].Perm
      [StableLogEntry.delete 0 0, StableLogEntry.update 0 0]) ∧
    ([] : List (Nat × Nat)) ≠ [(0, kdf 3 0)] := by
  refine ⟨by decide, by decide, ?_, by decide⟩
  exact List.Perm.swap _ _ _

/-- Claim C3 (amended): the order-independence of `update_inner` holds for
logs consisting only of `Update`/`UpdateRange` entries: permuting such a
log permutes the returned (id, key) pairs (same set) and leaves the final
forest state identical.  Logs mixing `Delete` with `Update` entries on the
same block are genuinely order-dependent (see the counterexample), because
the replay loop builds its dirty-marker set in entry order — `Update`
inserts a marker that `Delete` removes. -/
theorem mappedKhf_update_perm_invariant
    (m : MappedKhf) (wal1 wal2 : List StableLogEntry)
    (hperm : wal1.Perm wal2)
    (hupd : ∀ e ∈ wal1, e.isUpdateEntry = true) :
    (m.updateInner wal1).1.Perm (m.updateInner wal2).1 ∧
      (m.updateInner wal1).2 = (m.updateInner wal2).2 := by
  have hupd2 : ∀ e ∈ wal2, e.isUpdateEntry = true :=
    fun e he => hupd e (hperm.mem_iff.mpr he)
  obtain ⟨⟨r1, s1, n1⟩, nd1, mem1⟩ :=
    replayFold_spec wal1 hupd (m.inner, [])
  obtain ⟨⟨r2, s2, n2⟩, nd2, mem2⟩ :=
    replayFold_spec wal2 hupd2 (m.inner, [])
  have hperm12 :
      (wal1.foldl replayStep (m.inner, [])).2.Perm
        (wal2.foldl replayStep (m.inner, [])).2 := by
    rw [List.perm_ext_iff_of_nodup (nd1 List.nodup_nil)
      (nd2 List.nodup_nil)]
    intro x
    rw [mem1 x, mem2 x]
    constructor
    · rintro (hx | ⟨e, he, ht⟩)
      · exact absurd hx (List.not_mem_nil x)
      · exact Or.inr ⟨e, hperm.mem_iff.mp he, ht⟩
    · rintro (hx | ⟨e, he, ht⟩)
      · exact absurd hx (List.not_mem_nil x)
      · exact Or.inr ⟨e, hperm.mem_iff.mpr he, ht⟩
  constructor
  · simp only [MappedKhf.updateInner, KhfState.updateInner]
    rw [r1, r2, n1, n2]
    exact (hperm12.filter _).map _
  · simp only [MappedKhf.updateInner, KhfState.updateInner]
    rw [r1, r2, s1, s2, n1, n2]

/-- Witness for the amended C3 on a concrete updates-only log. -/
theorem mappedKhf_update_perm_invariant_witness :
    ([StableLogEntry.update 0 1, StableLogEntry.updateRange 0 0 2].Perm
      [StableLogEntry.updateRange 0 0 2, StableLogEntry.update 0 1]) ∧
    (∀ e ∈ [StableLogEntry.update 0 1, StableLogEntry.updateRange 0 0 2],
      e.isUpdateEntry = true) ∧
    ((khfEx.updateInner
        [StableLogEntry.update 0 1,
          StableLogEntry.updateRange 0 0 2]).1.Perm
      (khfEx.updateInner
        [StableLogEntry.updateRange 0 0 2,
          StableLogEntry.update 0 1]).1 ∧
      (khfEx.updateInner
        [StableLogEntry.update 0 1, StableLogEntry.updateRange 0 0 2]).2 =
      (khfEx.updateInner
        [StableLogEntry.updateRange 0 0 2, StableLogEntry.update 0 1]).2) :=
  ⟨List.Perm.swap _ _ _, by decide,
    mappedKhf_update_perm_invariant khfEx _ _ (List.Perm.swap _ _ _)
      (by decide)⟩

/-! ### Lethe lemmas and claims C1, C8, C9, C10 -/

theorem arena_get_insert (a : PersistentArena) (khf : MappedKhf)
    (key : Nat) : (a.insert khf key).get khf.khfId = some (key, khf) := by
  simp only [PersistentArena.insert, PersistentArena.get]
  rw [List.find?_append]
  have h1 : (a.khfs.filter (fun q => decide (q.1 ≠ khf.khfId))).find?
      (fun q => decide (q.1 = khf.khfId)) = none := by
    rw [List.find?_eq_none]
    intro x hx
    rw [List.mem_filter] at hx
    simpa using hx.2
  rw [h1]
  simp [List.find?]

theorem fs_get_set_self (fs : Fs) (p : FsPath) (d : FileData) :
    (fs.set p d).get p = some d := by
  simp only [Fs.set, Fs.get]
  rw [List.find?_append]
  have h1 : (fs.files.filter (fun q => decide (q.1 ≠ p))).find?
      (fun q => decide (q.1 = p)) = none := by
    rw [List.find?_eq_none]
    intro x hx
    rw [List.mem_filter] at hx
    simpa using hx.2
  rw [h1]
  simp [List.find?]

theorem persistOne_dirs (dir : Nat) (acc : Lethe × Fs) (objId : Nat) :
    ((persistOne dir acc objId).2).dirs = acc.2.dirs := by
  unfold persistOne
  split
  · dsimp only
    split
    · simp [Fs.set]
    · rfl
  · rfl
  · rfl

theorem persistFold_dirs (dir : Nat) (ids : List Nat) :
    ∀ acc : Lethe × Fs,
      ((ids.foldl (persistOne dir) acc).2).dirs = acc.2.dirs := by
  induction ids with
  | nil => intro acc; rfl
  | cons i rest ih =>
      intro acc
      simp only [List.foldl_cons]
      rw [ih, persistOne_dirs]

theorem lethe_persist_dir_exists (s : Lethe) (fs : Fs)
    (rootKey dir : Nat) :
    ((s.persist fs rootKey dir).2).dirs.contains dir = true := by
  simp only [Lethe.persist, Fs.set]
  rw [persistFold_dirs]
  have : dir ∈ insertIdem dir fs.dirs := mem_insertIdem.mpr (Or.inl rfl)
  simpa using this

theorem lethe_persist_state_file (s : Lethe) (fs : Fs)
    (rootKey dir : Nat) :
    ((s.persist fs rootKey dir).2).get (FsPath.statePath dir) =
      some (FileData.stateFile rootKey
        (((s.persist fs rootKey dir).1).persistView)) := by
  simp only [Lethe.persist]
  exact fs_get_set_self _ _ _

/-- Counterexample to claim C9 as stated: on a filesystem where the engine
directory (7) exists but holds no metadata file, `Lethe::load` fails with
an I/O error (`File::open` on `<path>/state`) instead of constructing
fresh state — the `fs::metadata` check guards the directory path, not the
metadata file. -/
theorem lethe_load_missing_metadata_counterexample :
    fsDirOnly.dirs.contains 7 = true ∧
    fsDirOnly.get (FsPath.statePath 7) = none ∧
    Lethe.load 0 fsDirOnly 7 = .error .io ∧
    Lethe.load 0 fsDirOnly 7 ≠ .ok (Lethe.new 7) := by decide

/-- Claim C9 (amended): `load(root_key, path)` constructs a fresh engine
exactly when the path ITSELF (the engine directory) is missing; when the
directory exists but the metadata file is absent, it propagates the open
error.  Otherwise it returns precisely the state that
`persist(root_key, path)` wrote: the serde-visible part of the
post-persist engine, rehydrated with empty caches, empty dirty set and a
default RNG. -/
theorem lethe_load_semantics (rootKey path : Nat) (fs fs2 : Fs)
    (s : Lethe) (h : fs.dirs.contains path = false) :
    Lethe.load rootKey fs path = .ok (Lethe.new path) ∧
    Lethe.load rootKey (s.persist fs2 rootKey path).2 path =
      .ok (Lethe.rehydrate (((s.persist fs2 rootKey path).1).persistView)) := by
  constructor
  · have h2 : path ∉ fs.dirs := by simpa using h
    simp [Lethe.load, h, h2]
  · have hdir := lethe_persist_dir_exists s fs2 rootKey path
    have hfile := lethe_persist_state_file s fs2 rootKey path
    have hmem : path ∈ ((s.persist fs2 rootKey path).2).dirs := by
      simpa using hdir
    simp [Lethe.load, hfile, hmem]

/-- Witness for the amended C9 at concrete inputs. -/
theorem lethe_load_semantics_witness :
    fsEmpty.dirs.contains 7 = false ∧
    (Lethe.load 0 fsEmpty 7 = .ok (Lethe.new 7) ∧
      Lethe.load 0 (letheFresh.persist fsEmpty 0 7).2 7 =
        .ok (Lethe.rehydrate
          (((letheFresh.persist fsEmpty 0 7).1).persistView))) :=
  ⟨by decide, lethe_load_semantics 0 7 fsEmpty fsEmpty letheFresh (by decide)⟩

/-- Counterexample to claim C8 as stated: a stable `derive` on an absent
key is NOT always `Ok(None)` — on a fresh Lethe engine, `derive((0, 0))`
for the never-written object 0 fails with `MissingSourceMapping`, because
`get_object_khf` propagates the id-resolution error. -/
theorem lethe_derive_unmapped_counterexample :
    letheFresh.derive fsEmpty (0, 0) =
      .error (.missingSourceMapping 0) := by decide

/-- Claim C8 (amended): `StableKeyMap::derive` always returns `Ok` of the
stored lookup — `Ok(None)` exactly on an absent key (its error type is
`Infallible`); `Lethe::derive`, by contrast, returns an error, not
`Ok(None)`, whenever the object id has no object-to-forest-id mapping.
(`Ok(None)` does occur for a mapped object whose forest does not cover the
block or cannot be loaded.) -/
theorem derive_absent_semantics :
    (∀ (s : StableKeyMap) (keyId : Nat),
        s.derive keyId = .ok (s.keys.lookup keyId)) ∧
    (∀ (s : Lethe) (fs : Fs) (objId block : Nat),
        s.idManager.srcToDst.lookup objId = none →
        s.derive fs (objId, block) =
          .error (.missingSourceMapping objId)) := by
  refine ⟨fun s keyId => rfl, ?_⟩
  intro s fs objId block h
  have hres : s.idManager.resolveSrcId objId =
      .error (.missingSourceMapping objId) := by
    simp [IdManager.resolveSrcId, h]
  simp [Lethe.derive, Lethe.getObjectKhf, hres]

/-- Witness for the amended C8 at concrete inputs. -/
theorem derive_absent_semantics_witness :
    (skmEx0.derive 3 = .ok (skmEx0.keys.lookup 3)) ∧
    letheFresh.idManager.srcToDst.lookup 0 = none ∧
    letheFresh.derive fsEmpty (0, 0) =
      .error (.missingSourceMapping 0) :=
  ⟨derive_absent_semantics.1 skmEx0 3, by decide,
    derive_absent_semantics.2 letheFresh fsEmpty 0 0 (by decide)⟩

/-- Counterexample to claim C1 as stated: objects 5 and 9, both first
written in the same epoch, receive IDENTICAL primary and spanning root
keys — both pairs are derived from the engine's per-epoch KDFs at the
constant `DEFAULT_SYSTEM_KHF_KEY_ID`, not freshly drawn from the RNG
(only `MappedKhfBuilder::with_rng`, used for the system forest, draws
fresh random roots). -/
theorem lethe_same_epoch_roots_counterexample :
    letheEx1.idManager.resolveSrcId 5 = .ok 1 ∧
    letheEx2.idManager.resolveSrcId 9 = .ok 2 ∧
    (letheEx2.arena.get 1).map (fun q => q.2.inner.rootKey) =
      (letheEx2.arena.get 2).map (fun q => q.2.inner.rootKey) ∧
    (letheEx2.arena.get 1).map (fun q => q.2.inner.spanningRootKey) =
      (letheEx2.arena.get 2).map (fun q => q.2.inner.spanningRootKey) ∧
    (letheEx2.arena.get 1).map (fun q => q.2.inner.rootKey) =
      some (kdfDerive letheFresh.rootKeyKdf systemKhfKeyId) := by decide

/-- Claim C1 (amended): a mutable derivation on an object with no existing
object-to-forest-id mapping allocates a forest-id and constructs a new
empty per-object forest — but its two roots are DERIVED from the engine's
per-epoch root and spanning-root KDFs at the constant system key id, so
two distinct objects first written in the same epoch receive the SAME
(primary, spanning) root pair; fresh randomness enters only per epoch,
when `update` re-seeds the KDFs. -/
theorem arena_get_insert_withKeys (a : PersistentArena)
    (d o rk sk key : Nat) :
    (a.insert (MappedKhf.withKeys d o rk sk) key).get d =
      some (key, MappedKhf.withKeys d o rk sk) := by
  have h := arena_get_insert a (MappedKhf.withKeys d o rk sk) key
  simpa [MappedKhf.withKeys] using h

/-- The creation path of `get_object_khf_mut` in closed form: with no
mapping for the object and a successful forest-id allocation, the call
allocates the id, builds the forest from the two epoch-KDF derivations at
the system key id, inserts it under an unlogged write derivation on the
system forest, and marks the system forest. -/
theorem getObjectKhfMut_create (s : Lethe) (fs : Fs) (o d : Nat)
    (a2 : SequentialIdAllocator)
    (h : s.idManager.srcToDst.lookup o = none)
    (ha : s.idManager.idAllocator.alloc = .ok (d, a2)) :
    s.getObjectKhfMut fs o =
      .ok (d,
        { s with
          idManager := { srcToDst := s.idManager.srcToDst ++ [(o, d)],
                         dstToSrc := s.idManager.dstToSrc ++ [(d, o)],
                         idAllocator := a2 },
          systemKhf :=
            ((s.systemKhf.deriveMutInnerUnlogged d).2).markKeyInner d,
          arena := s.arena.insert
            (MappedKhf.withKeys d o (kdfDerive s.rootKeyKdf systemKhfKeyId)
              (kdfDerive s.spanningRootKeyKdf systemKhfKeyId))
            (s.systemKhf.deriveMutInnerUnlogged d).1 }) := by
  have hres : s.idManager.resolveSrcId o =
      .error (.missingSourceMapping o) := by
    simp [IdManager.resolveSrcId, h]
  unfold Lethe.getObjectKhfMut IdManager.add
  rw [hres, h, ha]
  simp only [arena_get_insert_withKeys]

/-- The creation path fails exactly as the allocator does. -/
theorem getObjectKhfMut_alloc_error (s : Lethe) (fs : Fs) (o : Nat)
    (e : LetheError)
    (h : s.idManager.srcToDst.lookup o = none)
    (ha : s.idManager.idAllocator.alloc = .error e) :
    s.getObjectKhfMut fs o = .error e := by
  have hres : s.idManager.resolveSrcId o =
      .error (.missingSourceMapping o) := by
    simp [IdManager.resolveSrcId, h]
  unfold Lethe.getObjectKhfMut IdManager.add
  rw [hres, h, ha]

theorem lethe_new_object_khf_epoch_roots (s : Lethe) (fs : Fs)
    (o1 o2 khfId1 khfId2 : Nat) (s1 s2 : Lethe)
    (h1 : s.idManager.srcToDst.lookup o1 = none)
    (hr1 : s.getObjectKhfMut fs o1 = .ok (khfId1, s1))
    (h2 : s1.idManager.srcToDst.lookup o2 = none)
    (hr2 : s1.getObjectKhfMut fs o2 = .ok (khfId2, s2)) :
    ∃ u1 khf1 u2 khf2,
      s1.arena.get khfId1 = some (u1, khf1) ∧
      s2.arena.get khfId2 = some (u2, khf2) ∧
      khf1.objId = o1 ∧ khf2.objId = o2 ∧
      khf1.inner.numKeys = 0 ∧ khf2.inner.numKeys = 0 ∧
      khf1.inner.markedKeys = [] ∧ khf2.inner.markedKeys = [] ∧
      khf1.inner.rootKey = kdfDerive s.rootKeyKdf systemKhfKeyId ∧
      khf1.inner.spanningRootKey =
        kdfDerive s.spanningRootKeyKdf systemKhfKeyId ∧
      khf2.inner.rootKey = khf1.inner.rootKey ∧
      khf2.inner.spanningRootKey = khf1.inner.spanningRootKey := by
  rcases hal1 : s.idManager.idAllocator.alloc with e1 | ⟨d1, a1⟩
  · rw [getObjectKhfMut_alloc_error s fs o1 e1 h1 hal1] at hr1
    exact absurd hr1 (by simp)
  · rw [getObjectKhfMut_create s fs o1 d1 a1 h1 hal1] at hr1
    rw [Except.ok.injEq, Prod.mk.injEq] at hr1
    obtain ⟨hk1, hs1⟩ := hr1
    subst hk1
    rcases hal2 : s1.idManager.idAllocator.alloc with e2 | ⟨d2, a2⟩
    · rw [getObjectKhfMut_alloc_error s1 fs o2 e2 h2 hal2] at hr2
      exact absurd hr2 (by simp)
    · rw [getObjectKhfMut_create s1 fs o2 d2 a2 h2 hal2] at hr2
      rw [Except.ok.injEq, Prod.mk.injEq] at hr2
      obtain ⟨hk2, hs2⟩ := hr2
      subst hk2
      refine ⟨(s.systemKhf.deriveMutInnerUnlogged d1).1,
        MappedKhf.withKeys d1 o1
          (kdfDerive s.rootKeyKdf systemKhfKeyId)
          (kdfDerive s.spanningRootKeyKdf systemKhfKeyId),
        (s1.systemKhf.deriveMutInnerUnlogged d2).1,
        MappedKhf.withKeys d2 o2
          (kdfDerive s1.rootKeyKdf systemKhfKeyId)
          (kdfDerive s1.spanningRootKeyKdf systemKhfKeyId),
        ?_, ?_, rfl, rfl, rfl, rfl, rfl, rfl, rfl, rfl, ?_, ?_⟩
      · rw [← hs1]
        exact arena_get_insert_withKeys _ _ _ _ _ _
      · rw [← hs2]
        exact arena_get_insert_withKeys _ _ _ _ _ _
      · rw [← hs1]
        rfl
      · rw [← hs1]
        rfl

/-- Witness for the amended C1: objects 5 and 9 created on a fresh engine
receive forest-ids 1 and 2 and identical epoch-derived root pairs. -/
theorem lethe_new_object_khf_epoch_roots_witness :
    letheFresh.idManager.srcToDst.lookup 5 = none ∧
    letheFresh.getObjectKhfMut fsEmpty 5 = .ok (1, letheS1) ∧
    letheS1.idManager.srcToDst.lookup 9 = none ∧
    letheS1.getObjectKhfMut fsEmpty 9 = .ok (2, letheS2) ∧
    (∃ u1 khf1 u2 khf2,
      letheS1.arena.get 1 = some (u1, khf1) ∧
      letheS2.arena.get 2 = some (u2, khf2) ∧
      khf1.objId = 5 ∧ khf2.objId = 9 ∧
      khf1.inner.numKeys = 0 ∧ khf2.inner.numKeys = 0 ∧
      khf1.inner.markedKeys = [] ∧ khf2.inner.markedKeys = [] ∧
      khf1.inner.rootKey =
        kdfDerive letheFresh.rootKeyKdf systemKhfKeyId ∧
      khf1.inner.spanningRootKey =
        kdfDerive letheFresh.spanningRootKeyKdf systemKhfKeyId ∧
      khf2.inner.rootKey = khf1.inner.rootKey ∧
      khf2.inner.spanningRootKey = khf1.inner.spanningRootKey) :=
  ⟨by decide, by decide, by decide, by decide,
    lethe_new_object_khf_epoch_roots letheFresh fsEmpty 5 9 1 2
      letheS1 letheS2 (by decide) (by decide) (by decide) (by decide)⟩

/-- Claim C10 at the failing input: the first write to object 5 allocates
forest-id 1 and inserts OBJECT id 5 into the dirty set; `delete_object(5)`
removes FOREST-id 1 from that set (lethe/mod.rs line 799, contradicting
its own comment), so object 5 is still in the dirty set after the delete,
while its mapping is gone. -/
theorem lethe_delete_object_leaves_dirty :
    letheEx1.dirtyObjectKhfs = [5] ∧
    letheEx1.idManager.resolveSrcId 5 = .ok 1 ∧
    letheEx3.dirtyObjectKhfs = [5] ∧
    letheEx3.idManager.resolveSrcId 5 =
      .error (.missingSourceMapping 5) := by decide

/-! ### Stream-cipher, disk and ceiling lemmas for the round-trip -/

theorem xorStream_length (f : Nat → Nat) :
    ∀ (i : Nat) (l : List Nat), (xorStream f i l).length = l.length := by
  intro i l
  induction l generalizing i with
  | nil => rfl
  | cons b rest ih => simp [xorStream, ih]

theorem xorStream_xorStream (f : Nat → Nat) :
    ∀ (i : Nat) (l : List Nat), xorStream f i (xorStream f i l) = l := by
  intro i l
  induction l generalizing i with
  | nil => rfl
  | cons b rest ih =>
      simp [xorStream, ih, Nat.xor_cancel_right]

theorem xorStream_take (f : Nat → Nat) :
    ∀ (i m : Nat) (l : List Nat),
      (xorStream f i l).take m = xorStream f i (l.take m) := by
  intro i m l
  induction l generalizing i m with
  | nil => simp [xorStream]
  | cons b rest ih =>
      cases m with
      | zero => simp [xorStream]
      | succ m2 => simp [xorStream, ih]

theorem cryptSector_length (ks : Nat → List Nat → Nat → Nat)
    (key : Nat) (iv data : List Nat) :
    (cryptSector ks key iv data).length = data.length :=
  xorStream_length _ _ _

theorem cryptSector_cryptSector (ks : Nat → List Nat → Nat → Nat)
    (key : Nat) (iv data : List Nat) :
    cryptSector ks key iv (cryptSector ks key iv data) = data :=
  xorStream_xorStream _ _ _

theorem cryptSector_take (ks : Nat → List Nat → Nat → Nat)
    (key : Nat) (iv : List Nat) (m : Nat) (data : List Nat) :
    (cryptSector ks key iv data).take m =
      cryptSector ks key iv (data.take m) :=
  xorStream_take _ _ _ _

theorem readAt_length (d : Disk) (len off : Nat) :
    (d.readAt len off).length = len := by
  simp [Disk.readAt]

theorem readAt_writeAt_take (d : Disk) (ct : List Nat) (off n : Nat)
    (h : n ≤ ct.length) :
    (d.writeAt ct off).readAt n off = ct.take n := by
  apply List.ext_getElem
  · simp [Disk.readAt, readAt_length]
    omega
  · intro i h1 h2
    simp only [Disk.readAt, Disk.writeAt, List.getElem_map,
      List.getElem_range]
    rw [List.getElem_take]
    have hi : i < n := by simpa [Disk.readAt] using h1
    rw [if_pos (by omega)]
    rw [List.getD_eq_getElem ct 0 (by omega)]
    congr 1
    omega

theorem ceil_div_sub_one_mul_lt (D x : Nat) (hD : 0 < D) (hx : 0 < x) :
    ((x + (D - 1)) / D - 1) * D < x := by
  have h1 : x + (D - 1) = (x - 1) + D := by omega
  rw [h1, Nat.add_div_right _ hD]
  simp only [Nat.add_sub_cancel]
  have h2 := Nat.div_mul_le_self (x - 1) D
  omega

theorem ceil_div_pos (D x : Nat) (hD : 0 < D) (hx : 0 < x) :
    1 ≤ (x + (D - 1)) / D := by
  have h1 := le_ceil_div_mul D x hD
  rcases Nat.eq_zero_or_pos ((x + (D - 1)) / D) with h | h
  · rw [h] at h1
    simp at h1
    omega
  · exact h

theorem totalBytes_bounds (S ivl x : Nat) (hS : ivl < S) (hx : 0 < x) :
    (logicalSectorCount (sectorDataSize S ivl) x - 1) * S + ivl <
        x + logicalSectorIvPadding ivl
          (logicalSectorCount (sectorDataSize S ivl) x) ∧
      x + logicalSectorIvPadding ivl
          (logicalSectorCount (sectorDataSize S ivl) x) ≤
        logicalSectorCount (sectorDataSize S ivl) x * S ∧
      1 ≤ logicalSectorCount (sectorDataSize S ivl) x := by
  have hD : 0 < sectorDataSize S ivl := by
    simp only [sectorDataSize]; omega
  set D := sectorDataSize S ivl with hDdef
  have hDS : D + ivl = S := by simp only [hDdef, sectorDataSize]; omega
  simp only [logicalSectorCount, logicalSectorIvPadding]
  have h1 : x ≤ (x + (D - 1)) / D * D := le_ceil_div_mul D x hD
  have h2 : ((x + (D - 1)) / D - 1) * D < x :=
    ceil_div_sub_one_mul_lt D x hD hx
  have h3 : 1 ≤ (x + (D - 1)) / D := ceil_div_pos D x hD hx
  obtain ⟨q, hq⟩ : ∃ q, (x + (D - 1)) / D = q + 1 :=
    ⟨(x + (D - 1)) / D - 1, by omega⟩
  rw [hq] at h1 h2 ⊢
  simp only [Nat.add_sub_cancel] at h2 ⊢
  have e1 : (q + 1) * S = (q + 1) * D + (q + 1) * ivl := by
    rw [← Nat.mul_add, hDS]
  have e2 : q * S = q * D + q * ivl := by
    rw [← Nat.mul_add, hDS]
  have e3 : (q + 1) * D = q * D + D := by ring
  have e4 : (q + 1) * ivl = q * ivl + ivl := by ring
  omega

/-! ### Chunk-loop lemmas -/

theorem decryptChunksGo_nil (S ivl : Nat) (ks : Nat → List Nat → Nat → Nat)
    (key : Nat) (fuel : Nat) :
    decryptChunksGo S ivl ks key fuel [] = [] := by
  cases fuel <;> rfl

theorem decryptChunksGo_length (S ivl : Nat)
    (ks : Nat → List Nat → Nat → Nat) (key : Nat) (hS : ivl < S) :
    ∀ (m fuel : Nat) (ct : List Nat),
      (m - 1) * S + ivl < ct.length → ct.length ≤ m * S →
      ct.length ≤ fuel →
      (decryptChunksGo S ivl ks key fuel ct).length =
        ct.length - m * ivl := by
  intro m
  induction m with
  | zero =>
      intro fuel ct h1 h2 _
      rw [Nat.zero_mul] at h2
      rw [Nat.zero_sub, Nat.zero_mul, Nat.zero_add] at h1
      omega
  | succ m ih =>
      intro fuel ct h1 h2 hfuel
      rw [Nat.add_sub_cancel] at h1
      have hpos : 0 < ct.length := by omega
      obtain ⟨b, rest, hct⟩ : ∃ b rest, ct = b :: rest := by
        cases ct with
        | nil => simp at hpos
        | cons b rest => exact ⟨b, rest, rfl⟩
      obtain ⟨f, hf⟩ : ∃ f, fuel = f + 1 := ⟨fuel - 1, by omega⟩
      subst hct hf
      rw [show decryptChunksGo S ivl ks key (f + 1) (b :: rest) =
          cryptSector ks key (((b :: rest).take S).take ivl)
            (((b :: rest).take S).drop ivl) ++
          decryptChunksGo S ivl ks key f ((b :: rest).drop S) from rfl]
      rw [List.length_append, cryptSector_length, List.length_drop,
        List.length_take]
      set L := (b :: rest).length with hL
      have hLdrop : ((b :: rest).drop S).length = L - S :=
        List.length_drop S (b :: rest)
      have e2 : (m + 1) * S = m * S + S := by ring
      have e4 : (m + 1) * ivl = m * ivl + ivl := by ring
      rw [e4]
      by_cases hle : L ≤ S
      · have hm0 : m = 0 := by
          rcases Nat.eq_zero_or_pos m with h | h
          · exact h
          · exfalso
            have hms : 1 * S ≤ m * S := Nat.mul_le_mul_right S h
            rw [Nat.one_mul] at hms
            omega
        subst hm0
        rw [Nat.zero_mul] at h1 ⊢
        have hdrop : (b :: rest).drop S = [] :=
          List.eq_nil_of_length_eq_zero (by omega)
        rw [hdrop, decryptChunksGo_nil]
        rw [Nat.min_eq_right hle]
        simp only [List.length_nil]
        omega
      · push_neg at hle
        have hSpos : 0 < S := by omega
        have hm1 : 1 ≤ m := by
          rcases Nat.eq_zero_or_pos m with h | h
          · exfalso
            subst h
            omega
          · exact h
        have e3 : (m - 1) * S + S = m * S := by
          have hm : m - 1 + 1 = m := by omega
          calc (m - 1) * S + S = (m - 1 + 1) * S := by ring
          _ = m * S := by rw [hm]
        have e5 : (m - 1) * ivl + ivl = m * ivl := by
          have hm : m - 1 + 1 = m := by omega
          calc (m - 1) * ivl + ivl = (m - 1 + 1) * ivl := by ring
          _ = m * ivl := by rw [hm]
        have e6 : (m - 1) * ivl ≤ (m - 1) * S :=
          Nat.mul_le_mul_left _ (le_of_lt hS)
        have hrec := ih f ((b :: rest).drop S)
          (by rw [hLdrop]; omega)
          (by rw [hLdrop]; omega)
          (by rw [hLdrop]; omega)
        rw [hrec, hLdrop]
        rw [Nat.min_eq_left (le_of_lt hle)]
        omega

theorem encryptChunksGo_length (S ivl : Nat)
    (ks : Nat → List Nat → Nat → Nat) (key : Nat) (hS : ivl < S) :
    ∀ (m g fuel : Nat) (pt : List Nat),
      pt.length = m * (S - ivl) → pt.length ≤ fuel →
      ((encryptChunksGo S ivl ks key fuel g pt).1).length = m * S := by
  intro m
  induction m with
  | zero =>
      intro g fuel pt h1 _
      rw [Nat.zero_mul] at h1
      have hnil : pt = [] := List.eq_nil_of_length_eq_zero h1
      subst hnil
      rw [Nat.zero_mul]
      cases fuel <;> simp [encryptChunksGo]
  | succ m ih =>
      intro g fuel pt h1 hfuel
      have hD : 0 < S - ivl := by omega
      have e1 : (m + 1) * (S - ivl) = m * (S - ivl) + (S - ivl) := by ring
      have hpos : 0 < pt.length := by omega
      obtain ⟨b, rest, hct⟩ : ∃ b rest, pt = b :: rest := by
        cases pt with
        | nil => simp at hpos
        | cons b rest => exact ⟨b, rest, rfl⟩
      obtain ⟨f, hf⟩ : ∃ f, fuel = f + 1 := ⟨fuel - 1, by omega⟩
      subst hct hf
      rw [show encryptChunksGo S ivl ks key (f + 1) g (b :: rest) =
          (ivBytes ivl g ++ cryptSector ks key (ivBytes ivl g)
              ((b :: rest).take (sectorDataSize S ivl)) ++
            (encryptChunksGo S ivl ks key f (g + 1)
              ((b :: rest).drop (sectorDataSize S ivl))).1,
            (encryptChunksGo S ivl ks key f (g + 1)
              ((b :: rest).drop (sectorDataSize S ivl))).2) from rfl]
      simp only [List.length_append, cryptSector_length, List.length_take]
      have hLdrop : ((b :: rest).drop (sectorDataSize S ivl)).length =
          (b :: rest).length - (S - ivl) := by
        rw [List.length_drop]
        rfl
      have hrec := ih (g + 1) f ((b :: rest).drop (sectorDataSize S ivl))
        (by rw [hLdrop]; omega) (by rw [hLdrop]; omega)
      rw [hrec]
      have hivLen : (ivBytes ivl g).length = ivl := by simp [ivBytes]
      rw [hivLen]
      have hmin : min (sectorDataSize S ivl) (b :: rest).length =
          S - ivl := by
        rw [show sectorDataSize S ivl = S - ivl from rfl]
        omega
      rw [hmin]
      have e2 : (m + 1) * S = m * S + S := by ring
      omega

theorem encryptChunksGo_nil_fst (S ivl : Nat)
    (ks : Nat → List Nat → Nat → Nat) (key : Nat) (fuel g : Nat) :
    (encryptChunksGo S ivl ks key fuel g []).1 = [] := by
  cases fuel <;> rfl

theorem decryptChunksGo_cons_eq (S ivl : Nat)
    (ks : Nat → List Nat → Nat → Nat) (key : Nat) (f : Nat)
    (l : List Nat) (hl : 0 < l.length) :
    decryptChunksGo S ivl ks key (f + 1) l =
      cryptSector ks key ((l.take S).take ivl) ((l.take S).drop ivl) ++
        decryptChunksGo S ivl ks key f (l.drop S) := by
  cases l with
  | nil => simp at hl
  | cons b rest => rfl

theorem decGo_encGo (S ivl : Nat) (ks : Nat → List Nat → Nat → Nat)
    (key : Nat) (hS : ivl < S) :
    ∀ (m g fuelE fuelD t : Nat) (pt : List Nat),
      pt.length = m * (S - ivl) → pt.length ≤ fuelE →
      (m - 1) * S + ivl < t → t ≤ m * S → t ≤ fuelD →
      decryptChunksGo S ivl ks key fuelD
          (((encryptChunksGo S ivl ks key fuelE g pt).1).take t) =
        pt.take (t - m * ivl) := by
  intro m
  induction m with
  | zero =>
      intro g fuelE fuelD t pt h1 h2 h3 h4 h5
      rw [Nat.zero_sub, Nat.zero_mul, Nat.zero_add] at h3
      rw [Nat.zero_mul] at h4
      omega
  | succ m ih =>
      intro g fuelE fuelD t pt h1 h2 h3 h4 h5
      rw [Nat.add_sub_cancel] at h3
      have hD : 0 < S - ivl := by omega
      have e1 : (m + 1) * (S - ivl) = m * (S - ivl) + (S - ivl) := by ring
      have e2 : (m + 1) * S = m * S + S := by ring
      have e4 : (m + 1) * ivl = m * ivl + ivl := by ring
      have hpos : 0 < pt.length := by omega
      obtain ⟨b, rest, hpt⟩ : ∃ b rest, pt = b :: rest := by
        cases pt with
        | nil => simp at hpos
        | cons b rest => exact ⟨b, rest, rfl⟩
      obtain ⟨fE, hfE⟩ : ∃ f, fuelE = f + 1 := ⟨fuelE - 1, by omega⟩
      obtain ⟨fD, hfD⟩ : ∃ f, fuelD = f + 1 := ⟨fuelD - 1, by omega⟩
      subst hpt hfE hfD
      rw [show (encryptChunksGo S ivl ks key (fE + 1) g (b :: rest)).1 =
          ivBytes ivl g ++ cryptSector ks key (ivBytes ivl g)
              ((b :: rest).take (sectorDataSize S ivl)) ++
            (encryptChunksGo S ivl ks key fE (g + 1)
              ((b :: rest).drop (sectorDataSize S ivl))).1 from rfl]
      have hivlen : (ivBytes ivl g).length = ivl := by simp [ivBytes]
      have hcslen : (cryptSector ks key (ivBytes ivl g)
          ((b :: rest).take (sectorDataSize S ivl))).length = S - ivl := by
        rw [cryptSector_length, List.length_take]
        rw [show sectorDataSize S ivl = S - ivl from rfl]
        omega
      have hheadlen : (ivBytes ivl g ++ cryptSector ks key (ivBytes ivl g)
          ((b :: rest).take (sectorDataSize S ivl))).length = S := by
        rw [List.length_append, hivlen, hcslen]
        omega
      by_cases hm0 : m = 0
      · subst hm0
        rw [Nat.zero_mul, Nat.zero_add] at h3
        rw [Nat.zero_add, Nat.one_mul] at h4
        rw [Nat.zero_add, Nat.one_mul] at h1
        simp only [Nat.zero_add, Nat.one_mul]
        have hdrop : (b :: rest).drop (sectorDataSize S ivl) = [] := by
          apply List.eq_nil_of_length_eq_zero
          rw [List.length_drop]
          rw [show sectorDataSize S ivl = S - ivl from rfl]
          omega
        rw [hdrop, encryptChunksGo_nil_fst, List.append_nil]
        rw [List.take_append_eq_append_take]
        rw [List.take_of_length_le (by rw [hivlen]; omega), hivlen]
        set l := ivBytes ivl g ++ (cryptSector ks key (ivBytes ivl g)
            ((b :: rest).take (sectorDataSize S ivl))).take (t - ivl)
          with hldef
        have hlen2 : l.length = t := by
          rw [hldef, List.length_append, hivlen, List.length_take, hcslen]
          omega
        rw [decryptChunksGo_cons_eq S ivl ks key fD l (by omega)]
        have htakeS : l.take S = l := List.take_of_length_le (by omega)
        have hdropS : l.drop S = [] := List.drop_eq_nil_of_le (by omega)
        rw [htakeS, hdropS, decryptChunksGo_nil, List.append_nil, hldef]
        rw [List.take_append_eq_append_take,
          List.take_of_length_le (le_of_eq hivlen), hivlen,
          Nat.sub_self, List.take_zero, List.append_nil]
        rw [List.drop_append_eq_append_drop, hivlen, Nat.sub_self,
          List.drop_zero, List.drop_eq_nil_of_le (le_of_eq hivlen),
          List.nil_append]
        have htakeD : (b :: rest).take (sectorDataSize S ivl) = b :: rest :=
          List.take_of_length_le
            (by rw [show sectorDataSize S ivl = S - ivl from rfl]; omega)
        rw [htakeD, cryptSector_take, cryptSector_cryptSector]
      · have hm1 : 1 ≤ m := by omega
        have e3 : (m - 1) * S + S = m * S := by
          have hm : m - 1 + 1 = m := by omega
          calc (m - 1) * S + S = (m - 1 + 1) * S := by ring
          _ = m * S := by rw [hm]
        have e5 : (m - 1) * ivl + ivl = m * ivl := by
          have hm : m - 1 + 1 = m := by omega
          calc (m - 1) * ivl + ivl = (m - 1 + 1) * ivl := by ring
          _ = m * ivl := by rw [hm]
        have e6 : (m - 1) * ivl ≤ (m - 1) * S :=
          Nat.mul_le_mul_left _ (le_of_lt hS)
        have e7 : m * ivl ≤ m * S := Nat.mul_le_mul_left _ (le_of_lt hS)
        have htS : S + m * ivl ≤ t := by omega
        rw [List.take_append_eq_append_take]
        rw [List.take_of_length_le (by rw [hheadlen]; omega), hheadlen]
        have hlen2 : S ≤ ((ivBytes ivl g ++ cryptSector ks key
            (ivBytes ivl g)
              ((b :: rest).take (sectorDataSize S ivl))) ++
            ((encryptChunksGo S ivl ks key fE (g + 1)
              ((b :: rest).drop (sectorDataSize S ivl))).1).take
                (t - S)).length := by
          rw [List.length_append, hheadlen]
          omega
        rw [decryptChunksGo_cons_eq S ivl ks key fD _
          (lt_of_lt_of_le (show (0:Nat) < S from by omega) hlen2)]
        rw [List.take_append_eq_append_take, hheadlen, Nat.sub_self,
          List.take_zero, List.append_nil,
          List.take_of_length_le (le_of_eq hheadlen)]
        rw [List.take_append_eq_append_take,
          List.take_of_length_le (le_of_eq hivlen), hivlen,
          Nat.sub_self, List.take_zero, List.append_nil]
        rw [List.drop_append_eq_append_drop, hivlen, Nat.sub_self,
          List.drop_zero, List.drop_eq_nil_of_le (le_of_eq hivlen),
          List.nil_append]
        rw [cryptSector_cryptSector]
        rw [List.drop_append_eq_append_drop, hheadlen, Nat.sub_self,
          List.drop_zero, List.drop_eq_nil_of_le (le_of_eq hheadlen),
          List.nil_append]
        have hdroplen : ((b :: rest).drop (sectorDataSize S ivl)).length =
            m * (S - ivl) := by
          rw [List.length_drop, show sectorDataSize S ivl = S - ivl from rfl]
          omega
        rw [ih (g + 1) fE fD (t - S) ((b :: rest).drop (sectorDataSize S ivl))
          hdroplen (by rw [hdroplen]; omega) (by omega) (by omega) (by omega)]
        have harith : t - (m + 1) * ivl =
            sectorDataSize S ivl + (t - S - m * ivl) := by
          rw [show sectorDataSize S ivl = S - ivl from rfl]
          omega
        rw [harith, List.take_add]

theorem readInner_eq (S ivl : Nat) (ks : Nat → List Nat → Nat → Nat)
    (key : Nat) (d : Disk) (len origin : Nat) :
    readInner S ivl ks key d len origin =
      ((decryptChunks S ivl ks key (d.readAt
          (logicalSectorPadding (sectorDataSize S ivl) origin + len +
            logicalSectorIvPadding ivl (logicalSectorCount
              (sectorDataSize S ivl)
              (logicalSectorPadding (sectorDataSize S ivl) origin + len)))
          (realSectorOffset S (sectorDataSize S ivl) origin))).length -
        logicalSectorPadding (sectorDataSize S ivl) origin,
       (decryptChunks S ivl ks key (d.readAt
          (logicalSectorPadding (sectorDataSize S ivl) origin + len +
            logicalSectorIvPadding ivl (logicalSectorCount
              (sectorDataSize S ivl)
              (logicalSectorPadding (sectorDataSize S ivl) origin + len)))
          (realSectorOffset S (sectorDataSize S ivl) origin))).drop
         (logicalSectorPadding (sectorDataSize S ivl) origin)) := rfl

theorem readInner_spec (S ivl : Nat) (ks : Nat → List Nat → Nat → Nat)
    (key : Nat) (d : Disk) (len origin : Nat) (hS : ivl < S)
    (hlen : 0 < len) :
    (readInner S ivl ks key d len origin).1 = len ∧
      (readInner S ivl ks key d len origin).2.length = len := by
  have hD : 0 < sectorDataSize S ivl := by
    rw [show sectorDataSize S ivl = S - ivl from rfl]
    omega
  obtain ⟨hb1, hb2, hb3⟩ := totalBytes_bounds S ivl
    (logicalSectorPadding (sectorDataSize S ivl) origin + len) hS (by omega)
  rw [readInner_eq]
  dsimp only
  set ct := d.readAt
      (logicalSectorPadding (sectorDataSize S ivl) origin + len +
        logicalSectorIvPadding ivl (logicalSectorCount (sectorDataSize S ivl)
          (logicalSectorPadding (sectorDataSize S ivl) origin + len)))
      (realSectorOffset S (sectorDataSize S ivl) origin) with hct
  have hrl : ct.length =
      logicalSectorPadding (sectorDataSize S ivl) origin + len +
        logicalSectorIvPadding ivl (logicalSectorCount (sectorDataSize S ivl)
          (logicalSectorPadding (sectorDataSize S ivl) origin + len)) := by
    rw [hct]
    exact readAt_length _ _ _
  have hptlen : (decryptChunks S ivl ks key ct).length =
      logicalSectorPadding (sectorDataSize S ivl) origin + len := by
    rw [show decryptChunks S ivl ks key ct =
        decryptChunksGo S ivl ks key ct.length ct from rfl]
    rw [decryptChunksGo_length S ivl ks key hS
      (logicalSectorCount (sectorDataSize S ivl)
        (logicalSectorPadding (sectorDataSize S ivl) origin + len))
      ct.length ct (by rw [hrl]; exact hb1) (by rw [hrl]; exact hb2)
      (le_refl _)]
    have hiv : logicalSectorIvPadding ivl (logicalSectorCount
        (sectorDataSize S ivl)
        (logicalSectorPadding (sectorDataSize S ivl) origin + len)) =
        logicalSectorCount (sectorDataSize S ivl)
          (logicalSectorPadding (sectorDataSize S ivl) origin + len) *
          ivl := rfl
    omega
  refine ⟨by omega, ?_⟩
  rw [List.length_drop]
  omega

theorem headReadLoopGo_toRead_zero (S ivl : Nat)
    (ks : Nat → List Nat → Nat → Nat) (key : Nat) (d : Disk)
    (ro fuel : Nat) :
    headReadLoopGo S ivl ks key d ro fuel 0 = [] := by
  cases fuel <;> rfl

theorem headReadLoopGo_eq (S ivl : Nat)
    (ks : Nat → List Nat → Nat → Nat) (key : Nat) (d : Disk) (ro : Nat)
    (hS : ivl < S) (fuel toRead : Nat) (hf : 0 < fuel) (ht : 0 < toRead) :
    headReadLoopGo S ivl ks key d ro fuel toRead =
      (readInner S ivl ks key d toRead ro).2 := by
  obtain ⟨f, hfe⟩ : ∃ f, fuel = f + 1 := ⟨fuel - 1, by omega⟩
  obtain ⟨p, hpe⟩ : ∃ p, toRead = p + 1 := ⟨toRead - 1, by omega⟩
  subst hfe hpe
  obtain ⟨hr1, hr2⟩ := readInner_spec S ivl ks key d (p + 1) ro hS
    (by omega)
  rw [show headReadLoopGo S ivl ks key d ro (f + 1) (p + 1) =
      (if (readInner S ivl ks key d (p + 1) ro).1 = 0 then []
       else (readInner S ivl ks key d (p + 1) ro).2.take
           (readInner S ivl ks key d (p + 1) ro).1 ++
         headReadLoopGo S ivl ks key d ro f
           (p + 1 - (readInner S ivl ks key d (p + 1) ro).1)) from rfl]
  rw [hr1]
  rw [if_neg (by omega)]
  rw [Nat.sub_self]
  rw [headReadLoopGo_toRead_zero]
  rw [List.append_nil]
  exact List.take_of_length_le (le_of_eq hr2)

theorem writeHead_length (S ivl : Nat) (ks : Nat → List Nat → Nat → Nat)
    (key : Nat) (d : Disk) (origin : Nat) (hS : ivl < S) :
    (writeHead S ivl ks key d origin).length =
      logicalSectorPadding (sectorDataSize S ivl) origin := by
  unfold writeHead
  dsimp only
  by_cases hp : 0 < logicalSectorPadding (sectorDataSize S ivl) origin
  · rw [if_pos hp]
    rw [headReadLoopGo_eq S ivl ks key d
      (logicalSectorOffset (sectorDataSize S ivl) origin) hS
      (logicalSectorPadding (sectorDataSize S ivl) origin)
      (logicalSectorPadding (sectorDataSize S ivl) origin) hp hp]
    exact (readInner_spec S ivl ks key d
      (logicalSectorPadding (sectorDataSize S ivl) origin)
      (logicalSectorOffset (sectorDataSize S ivl) origin) hS hp).2
  · rw [if_neg hp]
    simp only [List.length_nil]
    omega

theorem writeTail_length (S ivl : Nat) (ks : Nat → List Nat → Nat → Nat)
    (key : Nat) (d : Disk) (buf : List Nat) (origin : Nat) (hS : ivl < S) :
    (writeTail S ivl ks key d buf origin).length =
      (if 0 < logicalSectorPadding (sectorDataSize S ivl)
          (writeHead S ivl ks key d origin ++ buf).length then
        sectorDataSize S ivl - logicalSectorPadding (sectorDataSize S ivl)
          (writeHead S ivl ks key d origin ++ buf).length
      else 0) := by
  have hD : 0 < sectorDataSize S ivl := by
    rw [show sectorDataSize S ivl = S - ivl from rfl]
    omega
  obtain ⟨hr1, hr2⟩ := readInner_spec S ivl ks key d (sectorDataSize S ivl)
    (logicalSectorOffset (sectorDataSize S ivl) origin +
      logicalSectorOffset (sectorDataSize S ivl)
        (writeHead S ivl ks key d origin ++ buf).length) hS hD
  unfold writeTail
  dsimp only
  by_cases hex : 0 < logicalSectorPadding (sectorDataSize S ivl)
      (writeHead S ivl ks key d origin ++ buf).length
  · rw [if_pos hex, if_pos hex]
    rw [hr1]
    have hlt : logicalSectorPadding (sectorDataSize S ivl)
        (writeHead S ivl ks key d origin ++ buf).length <
        sectorDataSize S ivl := Nat.mod_lt _ hD
    rw [if_pos hlt]
    rw [List.length_drop, List.length_take, hr2, Nat.min_self]
  · rw [if_neg hex, if_neg hex]
    rfl

theorem pad_to_multiple (D x : Nat) (hD : 0 < D) (hx : 0 < x) :
    x + (if 0 < x % D then D - x % D else 0) = (x + (D - 1)) / D * D := by
  obtain ⟨q, r, hqr, hr⟩ : ∃ q r, x = D * q + r ∧ r < D :=
    ⟨x / D, x % D, (Nat.div_add_mod x D).symm, Nat.mod_lt x hD⟩
  subst hqr
  have hmod : (D * q + r) % D = r := by
    rw [Nat.mul_add_mod]
    exact Nat.mod_eq_of_lt hr
  rw [hmod]
  by_cases hr0 : 0 < r
  · rw [if_pos hr0]
    have e : D * (q + 1) = D * q + D := by ring
    have h2 : D * q + r + (D - 1) = D * (q + 1) + (r - 1) := by omega
    rw [h2, Nat.mul_add_div hD, Nat.div_eq_of_lt (by omega), Nat.add_zero]
    have e2 : (q + 1) * D = D * q + D := by ring
    omega
  · rw [if_neg hr0]
    have hrz : r = 0 := by omega
    subst hrz
    have hq : 0 < q := by
      rcases Nat.eq_zero_or_pos q with h | h
      · rw [h, Nat.mul_zero] at hx
        omega
      · exact h
    have h2 : D * q + 0 + (D - 1) = D * q + (D - 1) := by omega
    rw [h2, Nat.mul_add_div hD, Nat.div_eq_of_lt (by omega)]
    have e2 : (q + 0) * D = D * q := by ring
    omega

theorem writePt_length (S ivl : Nat) (ks : Nat → List Nat → Nat → Nat)
    (key : Nat) (d : Disk) (buf : List Nat) (origin : Nat)
    (hS : ivl < S) (hbuf : 0 < buf.length) :
    (writeHead S ivl ks key d origin ++ buf ++
        writeTail S ivl ks key d buf origin).length =
      logicalSectorCount (sectorDataSize S ivl)
          (writeHead S ivl ks key d origin ++ buf).length *
        sectorDataSize S ivl := by
  have hD : 0 < sectorDataSize S ivl := by
    rw [show sectorDataSize S ivl = S - ivl from rfl]
    omega
  have hx : 0 < (writeHead S ivl ks key d origin ++ buf).length := by
    rw [List.length_append]
    omega
  rw [List.length_append]
  rw [writeTail_length S ivl ks key d buf origin hS]
  have hmod : logicalSectorPadding (sectorDataSize S ivl)
      (writeHead S ivl ks key d origin ++ buf).length =
      (writeHead S ivl ks key d origin ++ buf).length %
        sectorDataSize S ivl := rfl
  have hcount : logicalSectorCount (sectorDataSize S ivl)
      (writeHead S ivl ks key d origin ++ buf).length =
      ((writeHead S ivl ks key d origin ++ buf).length +
        (sectorDataSize S ivl - 1)) / sectorDataSize S ivl := rfl
  have hp := pad_to_multiple (sectorDataSize S ivl)
    (writeHead S ivl ks key d origin ++ buf).length hD hx
  by_cases h : 0 < (writeHead S ivl ks key d origin ++ buf).length %
      sectorDataSize S ivl
  · rw [if_pos (by rw [hmod]; exact h)]
    rw [if_pos h] at hp
    rw [hmod, hcount]
    exact hp
  · rw [if_neg (by rw [hmod]; exact h)]
    rw [if_neg h] at hp
    rw [hcount]
    omega

/-- C5: for every sector-size/IV-length split, key, keystream, prior disk
state, IV-generator state, offset and non-empty buffer, `write_at(buf,
off)` through the padded `IvCryptIo` adapter followed by `read_at` of
`buf.length` bytes at the same offset returns exactly `buf` (and reports
`buf.length` bytes read): decryption inverts encryption sector by sector,
and the head/tail padding merged during the read-modify-write is
discarded. -/
theorem ivCryptIo_write_read_roundtrip (S ivl : Nat)
    (ks : Nat → List Nat → Nat → Nat) (key : Nat) (d : Disk) (g : Nat)
    (buf : List Nat) (origin : Nat) (hS : ivl < S)
    (hbuf : 0 < buf.length) :
    (readInner S ivl ks key (writeInner S ivl ks key d g buf origin).1
        buf.length origin).1 = buf.length ∧
      (readInner S ivl ks key (writeInner S ivl ks key d g buf origin).1
        buf.length origin).2 = buf := by
  have hD : 0 < sectorDataSize S ivl := by
    rw [show sectorDataSize S ivl = S - ivl from rfl]
    omega
  obtain ⟨hb1, hb2, hb3⟩ := totalBytes_bounds S ivl
    (logicalSectorPadding (sectorDataSize S ivl) origin + buf.length) hS
    (by omega)
  have hhead := writeHead_length S ivl ks key d origin hS
  have hpt1 : (writeHead S ivl ks key d origin ++ buf).length =
      logicalSectorPadding (sectorDataSize S ivl) origin + buf.length := by
    rw [List.length_append, hhead]
  have hpt : (writeHead S ivl ks key d origin ++ buf ++
      writeTail S ivl ks key d buf origin).length =
      logicalSectorCount (sectorDataSize S ivl)
          (logicalSectorPadding (sectorDataSize S ivl) origin +
            buf.length) *
        sectorDataSize S ivl := by
    rw [writePt_length S ivl ks key d buf origin hS hbuf, hpt1]
  have henc : ((encryptChunks S ivl ks key g
      (writeHead S ivl ks key d origin ++ buf ++
        writeTail S ivl ks key d buf origin)).1).length =
      logicalSectorCount (sectorDataSize S ivl)
          (logicalSectorPadding (sectorDataSize S ivl) origin +
            buf.length) * S := by
    rw [show encryptChunks S ivl ks key g
        (writeHead S ivl ks key d origin ++ buf ++
          writeTail S ivl ks key d buf origin) =
        encryptChunksGo S ivl ks key
          (writeHead S ivl ks key d origin ++ buf ++
            writeTail S ivl ks key d buf origin).length g
          (writeHead S ivl ks key d origin ++ buf ++
            writeTail S ivl ks key d buf origin) from rfl]
    exact encryptChunksGo_length S ivl ks key hS
      (logicalSectorCount (sectorDataSize S ivl)
        (logicalSectorPadding (sectorDataSize S ivl) origin + buf.length))
      g _ _ (by rw [hpt]; rfl) (le_refl _)
  rw [show (writeInner S ivl ks key d g buf origin).1 =
      d.writeAt ((encryptChunks S ivl ks key g
        (writeHead S ivl ks key d origin ++ buf ++
          writeTail S ivl ks key d buf origin)).1)
        (realSectorOffset S (sectorDataSize S ivl) origin) from rfl]
  rw [readInner_eq]
  dsimp only
  rw [readAt_writeAt_take d ((encryptChunks S ivl ks key g
      (writeHead S ivl ks key d origin ++ buf ++
        writeTail S ivl ks key d buf origin)).1)
    (realSectorOffset S (sectorDataSize S ivl) origin)
    (logicalSectorPadding (sectorDataSize S ivl) origin + buf.length +
      logicalSectorIvPadding ivl (logicalSectorCount (sectorDataSize S ivl)
        (logicalSectorPadding (sectorDataSize S ivl) origin + buf.length)))
    (by rw [henc]; exact hb2)]
  have hctlen : (((encryptChunks S ivl ks key g
      (writeHead S ivl ks key d origin ++ buf ++
        writeTail S ivl ks key d buf origin)).1).take
      (logicalSectorPadding (sectorDataSize S ivl) origin + buf.length +
        logicalSectorIvPadding ivl (logicalSectorCount
          (sectorDataSize S ivl)
          (logicalSectorPadding (sectorDataSize S ivl) origin +
            buf.length)))).length =
      logicalSectorPadding (sectorDataSize S ivl) origin + buf.length +
        logicalSectorIvPadding ivl (logicalSectorCount
          (sectorDataSize S ivl)
          (logicalSectorPadding (sectorDataSize S ivl) origin +
            buf.length)) := by
    rw [List.length_take, henc]
    exact Nat.min_eq_left hb2
  rw [show decryptChunks S ivl ks key (((encryptChunks S ivl ks key g
      (writeHead S ivl ks key d origin ++ buf ++
        writeTail S ivl ks key d buf origin)).1).take
      (logicalSectorPadding (sectorDataSize S ivl) origin + buf.length +
        logicalSectorIvPadding ivl (logicalSectorCount
          (sectorDataSize S ivl)
          (logicalSectorPadding (sectorDataSize S ivl) origin +
            buf.length)))) =
      decryptChunksGo S ivl ks key (((encryptChunks S ivl ks key g
        (writeHead S ivl ks key d origin ++ buf ++
          writeTail S ivl ks key d buf origin)).1).take
        (logicalSectorPadding (sectorDataSize S ivl) origin + buf.length +
          logicalSectorIvPadding ivl (logicalSectorCount
            (sectorDataSize S ivl)
            (logicalSectorPadding (sectorDataSize S ivl) origin +
              buf.length)))).length
        (((encryptChunks S ivl ks key g
          (writeHead S ivl ks key d origin ++ buf ++
            writeTail S ivl ks key d buf origin)).1).take
          (logicalSectorPadding (sectorDataSize S ivl) origin +
            buf.length +
            logicalSectorIvPadding ivl (logicalSectorCount
              (sectorDataSize S ivl)
              (logicalSectorPadding (sectorDataSize S ivl) origin +
                buf.length)))) from rfl]
  rw [hctlen]
  rw [show encryptChunks S ivl ks key g
      (writeHead S ivl ks key d origin ++ buf ++
        writeTail S ivl ks key d buf origin) =
      encryptChunksGo S ivl ks key
        (writeHead S ivl ks key d origin ++ buf ++
          writeTail S ivl ks key d buf origin).length g
        (writeHead S ivl ks key d origin ++ buf ++
          writeTail S ivl ks key d buf origin) from rfl]
  rw [decGo_encGo S ivl ks key hS
    (logicalSectorCount (sectorDataSize S ivl)
      (logicalSectorPadding (sectorDataSize S ivl) origin + buf.length))
    g
    (writeHead S ivl ks key d origin ++ buf ++
      writeTail S ivl ks key d buf origin).length
    (logicalSectorPadding (sectorDataSize S ivl) origin + buf.length +
      logicalSectorIvPadding ivl (logicalSectorCount (sectorDataSize S ivl)
        (logicalSectorPadding (sectorDataSize S ivl) origin + buf.length)))
    (logicalSectorPadding (sectorDataSize S ivl) origin + buf.length +
      logicalSectorIvPadding ivl (logicalSectorCount (sectorDataSize S ivl)
        (logicalSectorPadding (sectorDataSize S ivl) origin + buf.length)))
    (writeHead S ivl ks key d origin ++ buf ++
      writeTail S ivl ks key d buf origin)
    (by rw [hpt]; rfl) (le_refl _) hb1 hb2 (le_refl _)]
  have htb : logicalSectorPadding (sectorDataSize S ivl) origin +
      buf.length +
      logicalSectorIvPadding ivl (logicalSectorCount (sectorDataSize S ivl)
        (logicalSectorPadding (sectorDataSize S ivl) origin +
          buf.length)) -
      logicalSectorCount (sectorDataSize S ivl)
        (logicalSectorPadding (sectorDataSize S ivl) origin + buf.length) *
        ivl =
      (writeHead S ivl ks key d origin ++ buf).length := by
    have hiv : logicalSectorIvPadding ivl (logicalSectorCount
        (sectorDataSize S ivl)
        (logicalSectorPadding (sectorDataSize S ivl) origin +
          buf.length)) =
        logicalSectorCount (sectorDataSize S ivl)
          (logicalSectorPadding (sectorDataSize S ivl) origin +
            buf.length) * ivl := rfl
    omega
  rw [htb]
  rw [List.take_left]
  refine ⟨?_, ?_⟩
  · rw [hpt1]
    omega
  · rw [show logicalSectorPadding (sectorDataSize S ivl) origin =
      (writeHead S ivl ks key d origin).length from hhead.symm]
    exact List.drop_left _ _

theorem lor_land_self (x n : Nat) : (x ||| n) &&& n = n := by
  apply Nat.eq_of_testBit_eq
  intro i
  rw [Nat.testBit_and, Nat.testBit_or]
  cases h : n.testBit i <;> simp [h]

theorem encryptChunks_cons_fst (S ivl : Nat)
    (ks : Nat → List Nat → Nat → Nat) (key g b : Nat) (rest : List Nat) :
    (encryptChunks S ivl ks key g (b :: rest)).1 =
      ivBytes ivl g ++ cryptSector ks key (ivBytes ivl g)
          ((b :: rest).take (sectorDataSize S ivl)) ++
        (encryptChunksGo S ivl ks key rest.length (g + 1)
          ((b :: rest).drop (sectorDataSize S ivl))).1 := rfl

theorem encryptChunks_fst_length_ge (S ivl : Nat)
    (ks : Nat → List Nat → Nat → Nat) (key g : Nat) (pt : List Nat)
    (hpt : 0 < pt.length) :
    ivl ≤ ((encryptChunks S ivl ks key g pt).1).length := by
  obtain ⟨b, rest, hbr⟩ : ∃ b rest, pt = b :: rest := by
    cases pt with
    | nil => simp at hpt
    | cons b rest => exact ⟨b, rest, rfl⟩
  subst hbr
  rw [encryptChunks_cons_fst, List.length_append, List.length_append]
  rw [show (ivBytes ivl g).length = ivl from by simp [ivBytes]]
  omega

theorem encryptChunks_fst_take_iv (S ivl : Nat)
    (ks : Nat → List Nat → Nat → Nat) (key g : Nat) (pt : List Nat)
    (hpt : 0 < pt.length) :
    ((encryptChunks S ivl ks key g pt).1).take ivl = ivBytes ivl g := by
  obtain ⟨b, rest, hbr⟩ : ∃ b rest, pt = b :: rest := by
    cases pt with
    | nil => simp at hpt
    | cons b rest => exact ⟨b, rest, rfl⟩
  subst hbr
  have hivlen : (ivBytes ivl g).length = ivl := by simp [ivBytes]
  rw [encryptChunks_cons_fst]
  rw [List.take_append_eq_append_take]
  have h1 : ivl - (ivBytes ivl g ++ cryptSector ks key (ivBytes ivl g)
      ((b :: rest).take (sectorDataSize S ivl))).length = 0 := by
    rw [List.length_append, hivlen]
    omega
  rw [h1, List.take_zero, List.append_nil]
  rw [List.take_append_eq_append_take,
    List.take_of_length_le (le_of_eq hivlen), hivlen, Nat.sub_self,
    List.take_zero, List.append_nil]

theorem ivCryptIo_write_read_roundtrip_witness :
    1 < 4 ∧ 0 < ([10, 20, 30, 40, 50] : List Nat).length ∧
      ((readInner 4 1 ksZero 9
          (writeInner 4 1 ksZero 9 zeroDisk 5 [10, 20, 30, 40, 50] 2).1
          ([10, 20, 30, 40, 50] : List Nat).length 2).1 =
        ([10, 20, 30, 40, 50] : List Nat).length ∧
      (readInner 4 1 ksZero 9
          (writeInner 4 1 ksZero 9 zeroDisk 5 [10, 20, 30, 40, 50] 2).1
          ([10, 20, 30, 40, 50] : List Nat).length 2).2 =
        [10, 20, 30, 40, 50]) :=
  ⟨by decide, by decide,
    ivCryptIo_write_read_roundtrip 4 1 ksZero 9 zeroDisk 5
      [10, 20, 30, 40, 50] 2 (by decide) (by decide)⟩

/-- C7: the dirty-marker discipline, as the code actually implements it.
Only the speculative pre-crypt path marks IVs: every per-sector IV that
`SpeculativePreCryptAt::new` builds for a write has the `0x80` bit set in
its last byte, so the offline scraper locates those sectors.  The plain
padded `IvCryptIo::write_inner`, by contrast, stores the IV generator's
raw bytes for each written sector — the first written sector's stored IV
is exactly the generator output, with no marker bit ORed in. -/
theorem crypt_iv_dirty_marker_semantics :
    (∀ (ivl g s e : Nat) (iv : List Nat), iv ∈ specSectorIvs ivl g s e →
      iv.getLastD 0 &&& 128 = 128) ∧
    (∀ (S ivl : Nat) (ks : Nat → List Nat → Nat → Nat) (key : Nat)
        (d : Disk) (g : Nat) (buf : List Nat) (origin : Nat),
      ivl < S → 0 < buf.length →
      ((writeInner S ivl ks key d g buf origin).1).readAt ivl
          (realSectorOffset S (sectorDataSize S ivl) origin) =
        ivBytes ivl g) := by
  constructor
  · intro ivl g s e iv hiv
    simp only [specSectorIvs, List.mem_map] at hiv
    obtain ⟨k, hk, hmk⟩ := hiv
    subst hmk
    simp only [markDirtyIv]
    rw [List.getLastD_concat]
    exact lor_land_self _ 128
  · intro S ivl ks key d g buf origin hS hbuf
    have hptpos : 0 < (writeHead S ivl ks key d origin ++ buf ++
        writeTail S ivl ks key d buf origin).length := by
      rw [List.length_append, List.length_append]
      omega
    rw [show (writeInner S ivl ks key d g buf origin).1 =
        d.writeAt ((encryptChunks S ivl ks key g
          (writeHead S ivl ks key d origin ++ buf ++
            writeTail S ivl ks key d buf origin)).1)
          (realSectorOffset S (sectorDataSize S ivl) origin) from rfl]
    rw [readAt_writeAt_take d
      ((encryptChunks S ivl ks key g
        (writeHead S ivl ks key d origin ++ buf ++
          writeTail S ivl ks key d buf origin)).1)
      (realSectorOffset S (sectorDataSize S ivl) origin) ivl
      (encryptChunks_fst_length_ge S ivl ks key g _ hptpos)]
    exact encryptChunks_fst_take_iv S ivl ks key g _ hptpos

theorem crypt_iv_dirty_marker_semantics_witness :
    (markDirtyIv (ivBytes 1 0)).getLastD 0 &&& 128 = 128 ∧
      ((writeInner 4 1 ksZero 0 zeroDisk 0 [1, 2, 3] 0).1).readAt 1
          (realSectorOffset 4 (sectorDataSize 4 1) 0) = ivBytes 1 0 :=
  ⟨crypt_iv_dirty_marker_semantics.1 1 0 0 2 (markDirtyIv (ivBytes 1 0))
      (by decide),
    crypt_iv_dirty_marker_semantics.2 4 1 ksZero 0 zeroDisk 0 [1, 2, 3] 0
      (by decide) (by decide)⟩

/-! ### Claim C2: epoch rotation returns the pre-rotation keys -/

theorem nextRoot_ne (r : Nat) : nextRoot r ≠ r := by
  simp only [nextRoot, Nat.pair]
  split
  · omega
  · omega

theorem kdf_nextRoot_ne (r b : Nat) : kdf (nextRoot r) b ≠ kdf r b := by
  simp only [kdf]
  intro h
  exact nextRoot_ne r (Nat.pair_eq_pair.mp h).1

theorem replayStep_gen_spec (st : KhfState × List Nat)
    (e : StableLogEntry) :
    (replayStep st e).1.rootKey = st.1.rootKey ∧
      (st.2.Nodup → (replayStep st e).2.Nodup) := by
  cases e with
  | updateRange id s0 e0 =>
      obtain ⟨⟨h1, _, _⟩, hnd, _⟩ :=
        rangeFold_spec (List.range' s0 (e0 - s0)) st
      exact ⟨h1, hnd⟩
  | update id block =>
      exact ⟨rfl, fun h => insertIdem_nodup block h⟩
  | delete id block =>
      constructor
      · simp only [replayStep, KhfState.deleteKeyInner]
        split <;> rfl
      · exact fun h => removeAll_nodup block h
  | deleteObject id => exact ⟨rfl, fun h => h⟩

theorem replayFold_gen_spec (wal : List StableLogEntry) :
    ∀ st : KhfState × List Nat,
      (wal.foldl replayStep st).1.rootKey = st.1.rootKey ∧
        (st.2.Nodup → (wal.foldl replayStep st).2.Nodup) := by
  induction wal with
  | nil => intro st; exact ⟨rfl, fun h => h⟩
  | cons e rest ih =>
      intro st
      simp only [List.foldl_cons]
      obtain ⟨h1, h2⟩ := replayStep_gen_spec st e
      obtain ⟨g1, g2⟩ := ih (replayStep st e)
      exact ⟨g1.trans h1, fun h => g2 (h2 h)⟩

theorem updateInner_khfId_eq (m : MappedKhf)
    (wal : List StableLogEntry) :
    ((m.updateInner wal).2).khfId = m.khfId := rfl

theorem updateInner_rootKey_gen (m : MappedKhf)
    (wal : List StableLogEntry) :
    (m.updateInner wal).2.inner.rootKey = nextRoot m.inner.rootKey := by
  rw [show (m.updateInner wal).2.inner.rootKey =
      nextRoot ((wal.foldl replayStep (m.inner, [])).1.rootKey) from rfl,
    (replayFold_gen_spec wal (m.inner, [])).1]

theorem updateInner_mem_gen (m : MappedKhf) (wal : List StableLogEntry)
    (b k : Nat) (h : (b, k) ∈ (m.updateInner wal).1) :
    k = kdf m.inner.rootKey b ∧
      (m.updateInner wal).2.inner.deriveInner b =
        some (kdf (nextRoot m.inner.rootKey) b) := by
  have hroot := (replayFold_gen_spec wal (m.inner, [])).1
  rw [show (m.updateInner wal).1 =
      ((wal.foldl replayStep (m.inner, [])).2.filter
        (fun i => i < (wal.foldl replayStep (m.inner, [])).1.numKeys)).map
        (fun i =>
          (i, kdf (wal.foldl replayStep (m.inner, [])).1.rootKey i))
      from rfl] at h
  simp only [List.mem_map] at h
  obtain ⟨i, hi, hik⟩ := h
  have hib : i = b := congrArg Prod.fst hik
  have hk : k = kdf (wal.foldl replayStep (m.inner, [])).1.rootKey i :=
    (congrArg Prod.snd hik).symm
  rw [hib] at hi hk
  rw [List.mem_filter] at hi
  have hlt : b < (wal.foldl replayStep (m.inner, [])).1.numKeys := by
    simpa using hi.2
  constructor
  · rw [hk, hroot]
  · rw [show (m.updateInner wal).2.inner =
        { rootKey :=
            nextRoot ((wal.foldl replayStep (m.inner, [])).1.rootKey),
          spanningRootKey := nextRoot
            ((wal.foldl replayStep (m.inner, [])).1.spanningRootKey),
          numKeys := (wal.foldl replayStep (m.inner, [])).1.numKeys,
          markedKeys := [] } from rfl]
    simp only [KhfState.deriveInner]
    rw [if_pos hlt, hroot]

theorem updateInner_fst_nodup (m : MappedKhf)
    (wal : List StableLogEntry) :
    ((m.updateInner wal).1.map Prod.fst).Nodup := by
  have hnd := (replayFold_gen_spec wal (m.inner, [])).2 List.nodup_nil
  rw [show (m.updateInner wal).1 =
      ((wal.foldl replayStep (m.inner, [])).2.filter
        (fun i => i < (wal.foldl replayStep (m.inner, [])).1.numKeys)).map
        (fun i =>
          (i, kdf (wal.foldl replayStep (m.inner, [])).1.rootKey i))
      from rfl]
  rw [List.map_map]
  rw [show (Prod.fst ∘ fun i =>
      (i, kdf (wal.foldl replayStep (m.inner, [])).1.rootKey i)) =
      (id : Nat → Nat) from rfl, List.map_id]
  exact hnd.filter _

theorem arena_get_khfId (a : PersistentArena) (hc : a.consistent)
    (i : Nat) (q : Nat × MappedKhf) (h : a.get i = some q) :
    q.2.khfId = i := by
  simp only [PersistentArena.get] at h
  cases hfind : a.khfs.find? (fun e => e.1 = i) with
  | none => rw [hfind] at h; exact Option.noConfusion h
  | some entry =>
      rw [hfind] at h
      have h2 : entry.2 = q := Option.some.inj h
      have hp : entry.1 = i := by simpa using List.find?_some hfind
      have hm := List.mem_of_find?_eq_some hfind
      have he := hc entry hm
      rw [← h2, he, hp]

theorem arena_get_modify (a : PersistentArena) (khfId : Nat)
    (khf2 : MappedKhf) :
    (a.modify khfId khf2).get khfId =
      (a.get khfId).map (fun q => (q.1, khf2)) := by
  simp only [PersistentArena.modify, PersistentArena.get]
  induction a.khfs with
  | nil => rfl
  | cons p rest ih =>
      simp only [List.map_cons]
      by_cases h : p.1 = khfId
      · rw [if_pos h]
        rw [List.find?_cons_of_pos _ (by simpa using h),
          List.find?_cons_of_pos _ (by simpa using h)]
        rfl
      · rw [if_neg h]
        rw [List.find?_cons_of_neg _ (by simpa using h),
          List.find?_cons_of_neg _ (by simpa using h)]
        exact ih

theorem arena_get_modify_ne (a : PersistentArena) (khfId j : Nat)
    (khf2 : MappedKhf) (h : j ≠ khfId) :
    (a.modify khfId khf2).get j = a.get j := by
  simp only [PersistentArena.modify, PersistentArena.get]
  induction a.khfs with
  | nil => rfl
  | cons p rest ih =>
      simp only [List.map_cons]
      by_cases hp : p.1 = khfId
      · rw [if_pos hp]
        have hne : ¬ p.1 = j := by
          rw [hp]
          exact fun hh => h hh.symm
        rw [List.find?_cons_of_neg _ (by simpa using hne),
          List.find?_cons_of_neg _ (by simpa using hne)]
        exact ih
      · rw [if_neg hp]
        by_cases hj : p.1 = j
        · rw [List.find?_cons_of_pos _ (by simpa using hj),
            List.find?_cons_of_pos _ (by simpa using hj)]
        · rw [List.find?_cons_of_neg _ (by simpa using hj),
            List.find?_cons_of_neg _ (by simpa using hj)]
          exact ih

theorem arena_get_insert_ne (a : PersistentArena) (khf : MappedKhf)
    (key j : Nat) (h : j ≠ khf.khfId) :
    (a.insert khf key).get j = a.get j := by
  simp only [PersistentArena.insert, PersistentArena.get]
  rw [List.find?_append]
  have h2 : List.find? (fun q => decide (q.1 = j))
      [(khf.khfId, key, khf)] = none := by
    simp only [List.find?]
    rw [show (decide ((khf.khfId, key, khf).1 = j)) = false from by
      simp
      exact fun hh => h hh.symm]
  rw [h2, Option.or_none]
  induction a.khfs with
  | nil => rfl
  | cons p rest ih =>
      by_cases hp : p.1 = khf.khfId
      · rw [List.filter_cons_of_neg (by simpa using hp)]
        have hne : ¬ p.1 = j := by
          rw [hp]
          exact fun hh => h hh.symm
        rw [List.find?_cons_of_neg _ (by simpa using hne)]
        exact ih
      · rw [List.filter_cons_of_pos (by simpa using hp)]
        by_cases hj : p.1 = j
        · rw [List.find?_cons_of_pos _ (by simpa using hj),
            List.find?_cons_of_pos _ (by simpa using hj)]
        · rw [List.find?_cons_of_neg _ (by simpa using hj),
            List.find?_cons_of_neg _ (by simpa using hj)]
          exact ih

theorem arena_consistent_modify (a : PersistentArena) (khfId : Nat)
    (khf2 : MappedKhf) (hc : a.consistent) (h2 : khf2.khfId = khfId) :
    (a.modify khfId khf2).consistent := by
  intro q hq
  simp only [PersistentArena.modify, List.mem_map] at hq
  obtain ⟨p, hp, hpq⟩ := hq
  by_cases hpk : p.1 = khfId
  · rw [if_pos hpk] at hpq
    rw [← hpq, h2, hpk]
  · rw [if_neg hpk] at hpq
    rw [← hpq]
    exact hc p hp

theorem arena_consistent_insert (a : PersistentArena) (khf : MappedKhf)
    (key : Nat) (hc : a.consistent) : (a.insert khf key).consistent := by
  intro q hq
  simp only [PersistentArena.insert, List.mem_append, List.mem_filter,
    List.mem_singleton] at hq
  rcases hq with ⟨hmem, _⟩ | hq
  · exact hc q hmem
  · rw [hq]

theorem arena_consistent_remove (a : PersistentArena) (fs : Fs) (i : Nat)
    (hc : a.consistent) : ((a.remove fs i).1).consistent := by
  intro q hq
  simp only [PersistentArena.remove, List.mem_filter] at hq
  exact hc q hq.1

theorem fs_removeFile_consistent (fs : Fs) (p : FsPath)
    (hc : fs.khfFilesConsistent) :
    (fs.removeFile p).khfFilesConsistent := by
  intro q hq
  simp only [Fs.removeFile, List.mem_filter] at hq
  exact hc q hq.1

theorem fs_get_khfFile_id (fs : Fs) (hc : fs.khfFilesConsistent)
    (dir i encKey : Nat) (khf : MappedKhf)
    (h : fs.get (FsPath.khfPath dir i) =
      some (FileData.khfFile encKey khf)) :
    khf.khfId = i := by
  simp only [Fs.get] at h
  cases hfind : fs.files.find? (fun q => q.1 = FsPath.khfPath dir i) with
  | none => rw [hfind] at h; exact Option.noConfusion h
  | some entry =>
      rw [hfind] at h
      have h2 : entry.2 = FileData.khfFile encKey khf := Option.some.inj h
      have h1 : entry.1 = FsPath.khfPath dir i := by
        simpa using List.find?_some hfind
      exact hc entry (List.mem_of_find?_eq_some hfind) dir i encKey khf
        h1 h2

theorem sysWalStep_preserves (st : Lethe × Fs × List StableLogEntry)
    (e : StableLogEntry) (ha : st.1.arena.consistent)
    (hf : st.2.1.khfFilesConsistent) :
    (Lethe.updateSysWalStep st e).1.arena.consistent ∧
      (Lethe.updateSysWalStep st e).2.1.khfFilesConsistent := by
  cases e with
  | updateRange objId s0 e0 =>
      cases hres : st.1.idManager.resolveSrcId objId with
      | ok khfId =>
          simp only [Lethe.updateSysWalStep, hres]
          exact ⟨ha, hf⟩
      | error err =>
          simp only [Lethe.updateSysWalStep, hres]
          exact ⟨ha, hf⟩
  | update objId blk =>
      cases hres : st.1.idManager.resolveSrcId objId with
      | ok khfId =>
          simp only [Lethe.updateSysWalStep, hres]
          exact ⟨ha, hf⟩
      | error err =>
          simp only [Lethe.updateSysWalStep, hres]
          exact ⟨ha, hf⟩
  | delete objId blk =>
      cases hres : st.1.idManager.resolveSrcId objId with
      | ok khfId =>
          simp only [Lethe.updateSysWalStep, hres]
          exact ⟨ha, hf⟩
      | error err =>
          simp only [Lethe.updateSysWalStep, hres]
          exact ⟨ha, hf⟩
  | deleteObject objId =>
      cases hres : st.1.idManager.remove objId with
      | ok p =>
          obtain ⟨khfId, im2⟩ := p
          refine ⟨?_, ?_⟩
          · show ((Lethe.updateSysWalStep st
              (StableLogEntry.deleteObject objId)).1).arena.consistent
            simp only [Lethe.updateSysWalStep, hres]
            exact arena_consistent_remove _ _ _ ha
          · show ((Lethe.updateSysWalStep st
              (StableLogEntry.deleteObject objId)).2.1).khfFilesConsistent
            simp only [Lethe.updateSysWalStep, hres]
            exact fs_removeFile_consistent _ _ hf
      | error err =>
          constructor
          · simp only [Lethe.updateSysWalStep, hres]
            exact ha
          · simp only [Lethe.updateSysWalStep, hres]
            exact hf

theorem sysWalFold_preserves (wal : List StableLogEntry) :
    ∀ st : Lethe × Fs × List StableLogEntry,
      st.1.arena.consistent → st.2.1.khfFilesConsistent →
      (wal.foldl Lethe.updateSysWalStep st).1.arena.consistent ∧
        (wal.foldl Lethe.updateSysWalStep st).2.1.khfFilesConsistent := by
  induction wal with
  | nil => intro st ha hf; exact ⟨ha, hf⟩
  | cons e rest ih =>
      intro st ha hf
      simp only [List.foldl_cons]
      obtain ⟨ha2, hf2⟩ := sysWalStep_preserves st e ha hf
      exact ih _ ha2 hf2

theorem updateObjsGo_spec (fs : Fs) (wal : List StableLogEntry)
    (hfs : fs.khfFilesConsistent) :
    ∀ (ks : List (Nat × Nat)) (s : Lethe)
      (acc out : List ((Nat × Nat) × Nat)) (sfin : Lethe),
      (ks.map Prod.fst).Nodup →
      s.arena.consistent →
      Lethe.updateObjsGo fs wal s acc ks = .ok (out, sfin) →
      sfin.idManager = s.idManager ∧
      sfin.arena.consistent ∧
      (∀ j, j ∉ ks.map Prod.fst → sfin.arena.get j = s.arena.get j) ∧
      (∀ x ∈ out, x ∈ acc ∨
        ∃ khfId key2 khf2 r,
          sfin.idManager.resolveDstId khfId = .ok x.1.1 ∧
          sfin.arena.get khfId = some (key2, khf2) ∧
          khf2.inner.rootKey = nextRoot r ∧
          x.2 = kdf r x.1.2 ∧
          khf2.inner.deriveInner x.1.2 =
            some (kdf (nextRoot r) x.1.2)) := by
  intro ks
  induction ks with
  | nil =>
      intro s acc out sfin hnd hc hgo
      simp only [Lethe.updateObjsGo, Except.ok.injEq, Prod.mk.injEq]
        at hgo
      obtain ⟨h1, h2⟩ := hgo
      subst h1 h2
      exact ⟨rfl, hc, fun j _ => rfl, fun x hx => Or.inl hx⟩
  | cons p rest ih =>
      obtain ⟨khfId, khfKey⟩ := p
      intro s acc out sfin hnd hc hgo
      rw [List.map_cons, List.nodup_cons] at hnd
      obtain ⟨hnmem, hndr⟩ := hnd
      simp only [Lethe.updateObjsGo] at hgo
      cases hres : s.idManager.resolveDstId khfId with
      | error err =>
          rw [hres] at hgo
          obtain ⟨g1, g2, g3, g4⟩ := ih s acc out sfin hndr hc hgo
          exact ⟨g1, g2,
            fun j hj => g3 j (fun hh => hj (List.mem_cons_of_mem _ hh)),
            g4⟩
      | ok objId =>
          rw [hres] at hgo
          cases hget : s.arena.get khfId with
          | some q =>
              rw [hget] at hgo
              have hq2 : q.2.khfId = khfId :=
                arena_get_khfId s.arena hc khfId q hget
              have hc2 : PersistentArena.consistent
                  (s.arena.modify khfId
                    (q.2.updateInner
                      (wal.filter (StableLogEntry.isForObj objId))).2) :=
                arena_consistent_modify _ _ _ hc
                  ((updateInner_khfId_eq _ _).trans hq2)
              obtain ⟨g1, g2, g3, g4⟩ := ih
                { s with arena := (s.arena.modify khfId
                    (q.2.updateInner
                      (wal.filter (StableLogEntry.isForObj objId))).2) }
                (acc ++ (q.2.updateInner
                  (wal.filter (StableLogEntry.isForObj objId))).1.map
                    (fun bk => ((objId, bk.1), bk.2)))
                out sfin hndr hc2 hgo
              have hid : sfin.idManager = s.idManager := g1
              refine ⟨hid, g2, ?_, ?_⟩
              · intro j hj
                rw [List.map_cons, List.mem_cons] at hj
                push_neg at hj
                exact (g3 j hj.2).trans
                  (arena_get_modify_ne s.arena khfId j _ hj.1)
              · intro x hx
                rcases g4 x hx with hacc | hex
                · rw [List.mem_append] at hacc
                  rcases hacc with hacc | hnew
                  · exact Or.inl hacc
                  · right
                    rw [List.mem_map] at hnew
                    obtain ⟨bk, hbk, hfx⟩ := hnew
                    subst hfx
                    obtain ⟨hk, hder⟩ := updateInner_mem_gen q.2
                      (wal.filter (StableLogEntry.isForObj objId))
                      bk.1 bk.2 hbk
                    refine ⟨khfId, q.1,
                      (q.2.updateInner
                        (wal.filter (StableLogEntry.isForObj objId))).2,
                      q.2.inner.rootKey, ?_, ?_,
                      updateInner_rootKey_gen q.2 _, hk, hder⟩
                    · rw [hid]
                      exact hres
                    · rw [g3 khfId hnmem, arena_get_modify, hget]
                      rfl
                · exact Or.inr hex
          | none =>
              rw [hget] at hgo
              cases hload : s.arena.load fs khfId khfKey with
              | error err =>
                  rw [hload] at hgo
                  simp at hgo
              | ok pr =>
                  obtain ⟨khf, arena2⟩ := pr
                  rw [hload] at hgo
                  simp only [PersistentArena.load, hget] at hload
                  obtain ⟨hfile, harena2⟩ :
                      fs.get (FsPath.khfPath s.arena.dir khfId) =
                        some (FileData.khfFile khfKey khf) ∧
                      arena2 = s.arena.insert khf khfKey := by
                    cases hfg : fs.get (FsPath.khfPath s.arena.dir khfId)
                      with
                    | none => rw [hfg] at hload; simp at hload
                    | some fd =>
                        cases fd with
                        | khfFile encKey khf0 =>
                            rw [hfg] at hload
                            dsimp only at hload
                            by_cases hek : encKey = khfKey
                            · rw [if_pos hek] at hload
                              simp only [Except.ok.injEq, Prod.mk.injEq]
                                at hload
                              obtain ⟨hkhf, har⟩ := hload
                              subst hkhf
                              subst hek
                              exact ⟨rfl, har.symm⟩
                            · rw [if_neg hek] at hload
                              simp at hload
                        | stateFile a0 b0 =>
                            rw [hfg] at hload
                            simp at hload
                  have hkid : khf.khfId = khfId :=
                    fs_get_khfFile_id fs hfs s.arena.dir khfId khfKey khf
                      hfile
                  subst harena2
                  have hc2 : PersistentArena.consistent
                      ((s.arena.insert khf khfKey).modify khf.khfId
                        (khf.updateInner
                          (wal.filter (StableLogEntry.isForObj objId))).2) :=
                    arena_consistent_modify _ _ _
                      (arena_consistent_insert _ _ _ hc)
                      (updateInner_khfId_eq _ _)
                  obtain ⟨g1, g2, g3, g4⟩ := ih
                    { s with arena :=
                        ((s.arena.insert khf khfKey).modify khf.khfId
                          (khf.updateInner
                            (wal.filter
                              (StableLogEntry.isForObj objId))).2) }
                    (acc ++ (khf.updateInner
                      (wal.filter (StableLogEntry.isForObj objId))).1.map
                        (fun bk => ((objId, bk.1), bk.2)))
                    out sfin hndr hc2 hgo
                  have hid : sfin.idManager = s.idManager := g1
                  refine ⟨hid, g2, ?_, ?_⟩
                  · intro j hj
                    rw [List.map_cons, List.mem_cons] at hj
                    push_neg at hj
                    refine (g3 j hj.2).trans ?_
                    rw [arena_get_modify_ne _ _ _ _
                      (by rw [hkid]; exact hj.1)]
                    exact arena_get_insert_ne s.arena khf khfKey j
                      (by rw [hkid]; exact hj.1)
                  · intro x hx
                    rcases g4 x hx with hacc | hex
                    · rw [List.mem_append] at hacc
                      rcases hacc with hacc | hnew
                      · exact Or.inl hacc
                      · right
                        rw [List.mem_map] at hnew
                        obtain ⟨bk, hbk, hfx⟩ := hnew
                        subst hfx
                        obtain ⟨hk, hder⟩ := updateInner_mem_gen khf
                          (wal.filter (StableLogEntry.isForObj objId))
                          bk.1 bk.2 hbk
                        refine ⟨khfId, khfKey,
                          (khf.updateInner
                            (wal.filter
                              (StableLogEntry.isForObj objId))).2,
                          khf.inner.rootKey, ?_, ?_,
                          updateInner_rootKey_gen khf _, hk, hder⟩
                        · rw [hid]
                          exact hres
                        · rw [g3 khfId hnmem]
                          rw [show khfId = khf.khfId from hkid.symm,
                            arena_get_modify, arena_get_insert]
                          rfl
                    · exact Or.inr hex

/-- C2 (amended): for BOTH stable schemes, `update()` performs the epoch
rotation and returns, for every id that changed, the id paired with the
PRE-rotation key — the key the scheme held for that id before the call —
and afterwards the scheme holds a fresh, different key for that id.  For
`StableKeyMap` the returned pairs are exactly the marked ids with their
stored keys, each then overwritten by a fresh generator output.  For
`Lethe`, every returned `((obj, block), k)` carries the pre-rotation leaf
key `kdf r block` of the object's forest (root `r` before the call); the
rotation re-roots that forest to `nextRoot r`, so afterwards the engine
derives a different key for the same block.  The `StableKeyMap`
hypotheses are the `HashSet` invariant and RNG freshness; the `Lethe`
hypotheses are the id-consistency invariants that `PersistentArena::insert`
and `persist` maintain (forests keyed and stored under their own
forest-id).  All hold in every reachable state. -/
theorem stable_update_returns_prerotation_pairs :
    (∀ s : StableKeyMap, s.updatedKeys.Nodup →
      (∀ p ∈ s.keys, p.2 < s.rng) →
      ((s.update).1 =
        s.updatedKeys.filterMap
          (fun id => (s.keys.lookup id).map (fun k => (id, k))) ∧
      ∀ id ∈ s.updatedKeys, ∀ k, s.keys.lookup id = some k →
        ∃ v, (s.update).2.keys.lookup id = some v ∧ v ≠ k)) ∧
    (∀ (s : Lethe) (fs : Fs) (wal : List StableLogEntry)
        (pairs : List ((Nat × Nat) × Nat)) (s2 : Lethe) (fs2 : Fs),
      s.arena.consistent → fs.khfFilesConsistent →
      s.update fs wal = .ok (pairs, s2, fs2) →
      ∀ o b k, ((o, b), k) ∈ pairs →
        ∃ khfId key2 khf2 r,
          s2.idManager.resolveDstId khfId = .ok o ∧
          s2.arena.get khfId = some (key2, khf2) ∧
          khf2.inner.rootKey = nextRoot r ∧
          k = kdf r b ∧
          khf2.inner.deriveInner b = some (kdf (nextRoot r) b) ∧
          kdf (nextRoot r) b ≠ k) := by
  constructor
  · intro s hnd hfresh
    constructor
    · exact updateGo_pairs s.updatedKeys s.keys s.rng hnd
    · intro id hid k hk
      obtain ⟨v, hv, hle⟩ :=
        updateGo_lookup_fresh s.updatedKeys s.keys s.rng hnd id hid k hk
      refine ⟨v, hv, ?_⟩
      have hklt : k < s.rng := hfresh (id, k) (mem_of_lookup_assoc hk)
      omega
  · intro s fs wal pairs s2 fs2 hc hfs hup o b k hmem
    simp only [Lethe.update] at hup
    obtain ⟨hpre1, hpre2⟩ :=
      sysWalFold_preserves wal (s, fs, []) hc hfs
    cases hgo : Lethe.updateObjsGo
        (wal.foldl Lethe.updateSysWalStep (s, fs, [])).2.1 wal
        { (wal.foldl Lethe.updateSysWalStep (s, fs, [])).1 with
          systemKhf :=
            ((wal.foldl Lethe.updateSysWalStep
              (s, fs, [])).1.systemKhf.updateInner
                (wal.foldl Lethe.updateSysWalStep (s, fs, [])).2.2).2 }
        []
        ((wal.foldl Lethe.updateSysWalStep
          (s, fs, [])).1.systemKhf.updateInner
            (wal.foldl Lethe.updateSysWalStep (s, fs, [])).2.2).1 with
    | error err =>
        rw [hgo] at hup
        simp at hup
    | ok pr =>
        obtain ⟨keys, s2'⟩ := pr
        rw [hgo] at hup
        simp only [Except.ok.injEq, Prod.mk.injEq] at hup
        obtain ⟨hkeys, hs2, hfs2⟩ := hup
        rw [← hkeys] at hmem
        obtain ⟨g1, g2, g3, g4⟩ := updateObjsGo_spec
          (wal.foldl Lethe.updateSysWalStep (s, fs, [])).2.1 wal hpre2
          ((wal.foldl Lethe.updateSysWalStep
            (s, fs, [])).1.systemKhf.updateInner
              (wal.foldl Lethe.updateSysWalStep (s, fs, [])).2.2).1
          { (wal.foldl Lethe.updateSysWalStep (s, fs, [])).1 with
            systemKhf :=
              ((wal.foldl Lethe.updateSysWalStep
                (s, fs, [])).1.systemKhf.updateInner
                  (wal.foldl Lethe.updateSysWalStep (s, fs, [])).2.2).2 }
          [] keys s2'
          (updateInner_fst_nodup _ _) hpre1 hgo
        rcases g4 ((o, b), k) hmem with habs | hex
        · exact absurd habs (List.not_mem_nil _)
        · obtain ⟨khfId, key2, khf2, r0, h1, h2, h3, h4, h5⟩ := hex
          have h4k : k = kdf r0 b := h4
          refine ⟨khfId, key2, khf2, r0, ?_, ?_, h3, h4k, h5, ?_⟩
          · rw [show s2.idManager = s2'.idManager from by rw [← hs2]]
            exact h1
          · rw [show s2.arena = s2'.arena from by rw [← hs2]]
            exact h2
          · rw [h4k]
            exact kdf_nextRoot_ne r0 b

/-- Witness for the amended C2: the `StableKeyMap` half at the one-key
scheme, and the `Lethe` half at the engine holding one write to object 5,
rotated under the WAL that write appended. -/
theorem stable_update_returns_prerotation_pairs_witness :
    (skmEx1.updatedKeys.Nodup ∧ (∀ p ∈ skmEx1.keys, p.2 < skmEx1.rng) ∧
      ((skmEx1.update).1 =
        skmEx1.updatedKeys.filterMap
          (fun id => (skmEx1.keys.lookup id).map (fun k => (id, k))) ∧
      ∀ id ∈ skmEx1.updatedKeys, ∀ k, skmEx1.keys.lookup id = some k →
        ∃ v, (skmEx1.update).2.keys.lookup id = some v ∧ v ≠ k)) ∧
    (PersistentArena.consistent letheEx1.arena ∧
      Fs.khfFilesConsistent fsEmpty ∧
      letheEx1.update fsEmpty [StableLogEntry.update 5 0] =
        .ok (letheUPairs, letheUState, letheUFs) ∧
      ((5, 0), kdf (kdfDerive letheFresh.rootKeyKdf systemKhfKeyId) 0)
        ∈ letheUPairs ∧
      ∃ khfId key2 khf2 r,
        letheUState.idManager.resolveDstId khfId = .ok 5 ∧
        letheUState.arena.get khfId = some (key2, khf2) ∧
        khf2.inner.rootKey = nextRoot r ∧
        kdf (kdfDerive letheFresh.rootKeyKdf systemKhfKeyId) 0 =
          kdf r 0 ∧
        khf2.inner.deriveInner 0 = some (kdf (nextRoot r) 0) ∧
        kdf (nextRoot r) 0 ≠
          kdf (kdfDerive letheFresh.rootKeyKdf systemKhfKeyId) 0) :=
  ⟨⟨by decide, by decide,
    stable_update_returns_prerotation_pairs.1 skmEx1 (by decide)
      (by decide)⟩,
   ⟨by decide, by intro p hp; simp [fsEmpty] at hp, by decide, by decide,
    stable_update_returns_prerotation_pairs.2 letheEx1 fsEmpty
      [StableLogEntry.update 5 0] letheUPairs letheUState letheUFs
      (by decide) (by intro p hp; simp [fsEmpty] at hp) (by decide)
      5 0 (kdf (kdfDerive letheFresh.rootKeyKdf systemKhfKeyId) 0)
      (by decide)⟩⟩

/-- A padded-adapter write whose sector the scraper misses: the write of
`[1, 2, 3]` at offset 0 stores the raw IV `0` (marker bit clear), so
`scrape` reports no block for the modified file — while the same file
with the speculative-style marked IV is reported. -/
theorem padded_write_iv_unmarked_counterexample :
    ((writeInner 4 1 ksZero 0 zeroDisk 0 [1, 2, 3] 0).1).readAt 4 0 =
        [0, 1, 2, 3] ∧
      ((writeInner 4 1 ksZero 0 zeroDisk 0 [1, 2, 3] 0).1).readAt 1
          0 = [0] ∧
      scrape 4 1 3
          (((writeInner 4 1 ksZero 0 zeroDisk 0 [1, 2, 3] 0).1).readAt
            4 0) = [] ∧
      scrape 4 1 3 (markDirtyIv (ivBytes 1 0) ++ [1, 2, 3]) = [0] := by
  decide

end Twizzler
